import Mathlib

/-!
Shallow embedding of the optimizing Modbus client `tdemin/opmodbus`.

Machine integers: Go `uint16` values are modelled as `Nat`, with `% 65536`
inserted exactly where the Go code performs 16-bit arithmetic (the
`op.register+op.quantity` adjacency test, the `op.quantity+...` ceiling
test and merge update in `optimization.go`, and the `uint16(len(v)/2)`
cast in `convertWriteOp`).  Go `int` offsets are modelled as `Int`; the
one place the code adds two `int` values (`offset+size` in `Slice.Get`)
wraps to 64-bit two's complement via `wrap64`, and the slice-bounds
panic that wrap can cause is modelled as `none`.  Byte slices are
`List Nat`.

`sort.Slice` with the comparator `register <` is modelled by the stable
`List.insertionSort` on `register ≤` (Go's sort is unspecified on ties;
for the slice sizes exercised here Go uses insertion sort, which keeps
ties in input order, so the stable sort is a faithful refinement).

The nested `for` loops of `optimizeRead`/`optimizeWrite` are embedded
with an explicit fuel argument: one unit of fuel per outer iteration.
Each outer iteration advances the index by at least one, so fuel equal
to the list length is always sufficient; the top-level wrappers pass
exactly that.

The opaque transport (`goburrow/modbus`) is modelled by a scripted
oracle: each wire call consumes the next scripted outcome and is
recorded in a trace, so "how many calls were made, with which
arguments" is part of the state.
-/

set_option maxHeartbeats 1000000

set_option maxRecDepth 8192

/-- Modulus of Go `uint16` arithmetic. -/
def u16mod : Nat := 65536

/-- `maxFunc16Quantity` from src/optimization.go: write ceiling (function 16). -/
def maxFunc16Quantity : Nat := 123

/-- `maxFunc3Quantity` from src/optimization.go: read ceiling (function 3). -/
def maxFunc3Quantity : Nat := 2047

/-- `readOp` from src/optimization.go. -/
structure readOp where
  register : Nat
  quantity : Nat
deriving DecidableEq, Repr

/-- `writeOp` from src/optimization.go. -/
structure writeOp where
  register : Nat
  quantity : Nat
  value : List Nat
deriving DecidableEq, Repr

/-- The sort at the head of `optimizeRead`: `sort.Slice` by ascending register. -/
def sortReadOps (r : List readOp) : List readOp :=
  List.insertionSort (fun a b => a.register ≤ b.register) r

/-- The sort at the head of `optimizeWrite`: `sort.Slice` by ascending register. -/
def sortWriteOps (w : List writeOp) : List writeOp :=
  List.insertionSort (fun a b => a.register ≤ b.register) w

/-- One iteration of `optimizeRead`'s inner `for j` loop body, acting on the
accumulator `op` and the merge counter (the number of `i++` increments). -/
def readMergeStep (acc : readOp × Nat) (x : readOp) : readOp × Nat :=
  if x.register = (acc.1.register + acc.1.quantity) % u16mod ∧
      (acc.1.quantity + x.quantity) % u16mod ≤ maxFunc3Quantity then
    (⟨acc.1.register, (acc.1.quantity + x.quantity) % u16mod⟩, acc.2 + 1)
  else acc

/-- The outer `for i` loop of `optimizeRead` (fuel-indexed; one fuel per
outer iteration, the index advances by `merges + 1` as in the Go code,
where the inner loop always scans every op after position `i`). -/
def optimizeReadAux (preopt : List readOp) : Nat → Nat → List readOp
  | 0, _ => []
  | fuel + 1, i =>
    if h : i < preopt.length then
      let r := (preopt.drop (i + 1)).foldl readMergeStep (preopt[i], 0)
      r.1 :: optimizeReadAux preopt fuel (i + r.2 + 1)
    else []

/-- `optimizeRead` from src/optimization.go. -/
def optimizeRead (r : List readOp) : List readOp :=
  optimizeReadAux (sortReadOps r) (sortReadOps r).length 0

/-- One iteration of `optimizeWrite`'s inner loop body: on a merge it also
appends the absorbed op's value bytes. -/
def writeMergeStep (acc : writeOp × Nat) (x : writeOp) : writeOp × Nat :=
  if x.register = (acc.1.register + acc.1.quantity) % u16mod ∧
      (acc.1.quantity + x.quantity) % u16mod ≤ maxFunc16Quantity then
    (⟨acc.1.register, (acc.1.quantity + x.quantity) % u16mod, acc.1.value ++ x.value⟩, acc.2 + 1)
  else acc

/-- The outer loop of `optimizeWrite` (fuel-indexed as for reads). -/
def optimizeWriteAux (preopt : List writeOp) : Nat → Nat → List writeOp
  | 0, _ => []
  | fuel + 1, i =>
    if h : i < preopt.length then
      let r := (preopt.drop (i + 1)).foldl writeMergeStep (preopt[i], 0)
      r.1 :: optimizeWriteAux preopt fuel (i + r.2 + 1)
    else []

/-- `optimizeWrite` from src/optimization.go. -/
def optimizeWrite (w : List writeOp) : List writeOp :=
  optimizeWriteAux (sortWriteOps w) (sortWriteOps w).length 0

/-- `Slice` from src/internal/containers/slice.go: a byte slice safe from
panics on invalid indices. -/
abbrev Slice := List Nat

/-- `NewSlice` from slice.go. -/
def NewSlice (size : Nat) : Slice := List.replicate size 0

/-- `Slice.Set` from slice.go.  Go mutates the receiver and returns the
`copy` count; the model returns the updated slice together with the count.
`copy(s[offset:], data)` copies `min (len s - offset) (len data)` bytes. -/
def Slice.Set (s : Slice) (offset : Int) (data : List Nat) : Slice × Nat :=
  if (s.length : Int) ≤ offset ∨ offset < 0 then (s, 0)
  else
    let o := offset.toNat
    let m := min (s.length - o) data.length
    (s.take o ++ data.take m ++ s.drop (o + m), m)

/-- Two's-complement wraparound of Go's fixed-width 64-bit `int`
addition: maps any mathematical sum into `[-2^63, 2^63)`. -/
def wrap64 (n : Int) : Int := (n + 2 ^ 63) % 2 ^ 64 - 2 ^ 63

/-- `Slice.Get` from slice.go.  Go computes `offset+size` in fixed-width
`int` (64-bit two's complement), so the sum wraps on overflow; when the
wrapped sum is below `offset`, the guards all pass and the final
`s[offset : offset+size]` slice expression panics with a bounds
violation — modelled as `none`.  A `nil` result is modelled as
`some []`. -/
def Slice.Get (s : Slice) (offset size : Int) : Option (List Nat) :=
  if offset < 0 ∨ size < 0 then some []
  else if (s.length : Int) ≤ offset then some []
  else if (s.length : Int) ≤ wrap64 (offset + size) then some (s.drop offset.toNat)
  else if wrap64 (offset + size) < offset then none
  else some ((s.drop offset.toNat).take (wrap64 (offset + size) - offset).toNat)

/-- `maxUint16` from src/unnamed/part_002 line 73 (used as the byte size of
the flat reassembly buffer in `BatchRead`). -/
def maxUint16 : Nat := 65536

/-- Error sentinels of the package (`ErrTooManyRegisters`; the legacy
client of src/unnamed/part_001 additionally has `ErrOddByteNumber`). -/
inductive MbError where
  | tooManyRegisters (limit : Nat)
  | oddByteNumber
deriving DecidableEq, Repr

/-- `writeOp.validate` from src/optimization.go (current code): only the
123-register ceiling is checked. -/
def writeOp.validate (w : writeOp) : Option MbError :=
  if maxFunc16Quantity < w.quantity then some (MbError.tooManyRegisters maxFunc16Quantity)
  else none

/-- The legacy `writeOp.validate` from src/unnamed/part_001 lines 228-238:
an odd byte payload is rejected with `ErrOddByteNumber` first, then the
123-register ceiling is checked. -/
def writeOpValidateLegacy (w : writeOp) : Option MbError :=
  if w.value.length % 2 ≠ 0 then some MbError.oddByteNumber
  else if maxFunc16Quantity < w.quantity then some (MbError.tooManyRegisters maxFunc16Quantity)
  else none

/-- A `Write` request (the `Write` interface of src/unnamed/part_002),
reduced to its two observations: `Register()` and `Value().Bytes()`. -/
structure WriteReq where
  register : Nat
  value : List Nat
deriving DecidableEq, Repr

/-- `convertWriteOp` from src/optimization.go: quantity is the `uint16`
cast of `len(value)/2`. -/
def convertWriteOp (w : WriteReq) : Except MbError writeOp :=
  match writeOp.validate ⟨w.register, w.value.length / 2 % u16mod, w.value⟩ with
  | some e => Except.error e
  | none => Except.ok ⟨w.register, w.value.length / 2 % u16mod, w.value⟩

/-- `Registers` from src/unnamed/part_002: a register-to-value map, with a
`Value` modelled by its `Bytes()`. -/
abbrev Registers := List (Nat × List Nat)

/-- The `else` branch of `BatchWrite` (no differential optimization):
convert every request, stopping at the first validation error. -/
def convertWriteOps : List WriteReq → Except MbError (List writeOp)
  | [] => Except.ok []
  | op :: rest =>
    match convertWriteOp op with
    | Except.error e => Except.error e
    | Except.ok wop =>
      match convertWriteOps rest with
      | Except.error e => Except.error e
      | Except.ok l => Except.ok (wop :: l)

/-- The differential branch of `BatchWrite` (src/unnamed/part_002 lines
129-139): a request is kept when its register is absent from `oldData` or
its bytes differ from the stored value. -/
def diffConvertWriteOps (old : Registers) : List WriteReq → Except MbError (List writeOp)
  | [] => Except.ok []
  | op :: rest =>
    match old.lookup op.register with
    | none =>
      match convertWriteOp op with
      | Except.error e => Except.error e
      | Except.ok wop =>
        match diffConvertWriteOps old rest with
        | Except.error e => Except.error e
        | Except.ok l => Except.ok (wop :: l)
    | some v =>
      if v = op.value then diffConvertWriteOps old rest
      else
        match convertWriteOp op with
        | Except.error e => Except.error e
        | Except.ok wop =>
          match diffConvertWriteOps old rest with
          | Except.error e => Except.error e
          | Except.ok l => Except.ok (wop :: l)

/-- The validation/filter stage of `BatchWrite`: builds `diffOpt`. -/
def buildDiffOpt (ops : List WriteReq) (oldData : Option Registers) :
    Except MbError (List writeOp) :=
  match oldData with
  | some old => diffConvertWriteOps old ops
  | none => convertWriteOps ops

/-- Scripted write transport: `oracle` holds the outcome of each future
`WriteMultipleRegisters` call (`none` = success, `some e` = error `e`);
`trace` records every call actually issued, with its full arguments. -/
structure WriteTransport where
  oracle : List (Option Nat)
  trace : List writeOp
deriving DecidableEq, Repr

/-- One `WriteMultipleRegisters` wire call. -/
def writeCall (w : writeOp) (t : WriteTransport) : Option Nat × WriteTransport :=
  (t.oracle.headD none, ⟨t.oracle.tail, t.trace ++ [w]⟩)

/-- `Client.write` from src/unnamed/part_002 lines 222-225 (current code):
a single transport call, no retry. -/
def clientWrite (w : writeOp) (t : WriteTransport) : Option Nat × WriteTransport :=
  writeCall w t

/-- The legacy `Client.write` from src/unnamed/part_001 lines 235-243:
on a first error the call is retried once with identical arguments and
the retry's outcome is returned. -/
def clientWriteLegacy (w : writeOp) (t : WriteTransport) : Option Nat × WriteTransport :=
  match writeCall w t with
  | (some _, t1) => writeCall w t1
  | (none, t1) => (none, t1)

/-- Scripted read transport: outcomes of future `ReadHoldingRegisters`
calls (`Except.ok bytes` or `Except.error e`), plus the call trace. -/
structure ReadTransport where
  oracle : List (Except Nat (List Nat))
  trace : List readOp
deriving Repr

/-- One `ReadHoldingRegisters` wire call. -/
def readCall (r : readOp) (t : ReadTransport) : Except Nat (List Nat) × ReadTransport :=
  (t.oracle.headD (Except.ok []), ⟨t.oracle.tail, t.trace ++ [r]⟩)

/-- `Client.read` from src/unnamed/part_002 lines 218-220 (current code):
a single transport call, no retry. -/
def clientRead (r : readOp) (t : ReadTransport) : Except Nat (List Nat) × ReadTransport :=
  readCall r t

/-- The legacy `Client.read` from src/unnamed/part_001 lines 226-233:
retried once on error. -/
def clientReadLegacy (r : readOp) (t : ReadTransport) : Except Nat (List Nat) × ReadTransport :=
  match readCall r t with
  | (Except.error _, t1) => readCall r t1
  | (Except.ok b, t1) => (Except.ok b, t1)

/-- A batch-executor error: `fmt.Errorf("... request %d at %d: %w", i+1,
v.register, err)` keeps the 1-based position, the op's register and the
wrapped transport error. -/
structure batchError where
  pos : Nat
  register : Nat
  err : Nat
deriving DecidableEq, Repr

/-- `Client.batchWrite` from src/unnamed/part_002 lines 205-216: issue the
ops strictly in order, abort on the first failed call. -/
def batchWriteAux (i : Nat) (t : WriteTransport) :
    List writeOp → Except batchError Unit × WriteTransport
  | [] => (Except.ok (), t)
  | v :: rest =>
    match clientWrite v t with
    | (some e, t1) => (Except.error ⟨i + 1, v.register, e⟩, t1)
    | (none, t1) => batchWriteAux (i + 1) t1 rest

/-- `Client.batchWrite` (entry point). -/
def batchWrite (ops : List writeOp) (t : WriteTransport) :
    Except batchError Unit × WriteTransport :=
  batchWriteAux 0 t ops

/-- `Client.batchRead` from src/unnamed/part_002 lines 189-203: issue the
ops strictly in order, abort on the first failed call, otherwise collect
each result keyed by the op's starting register. -/
def batchReadAux (i : Nat) (acc : List (Nat × List Nat)) (t : ReadTransport) :
    List readOp → Except batchError (List (Nat × List Nat)) × ReadTransport
  | [] => (Except.ok acc, t)
  | v :: rest =>
    match clientRead v t with
    | (Except.error e, t1) => (Except.error ⟨i + 1, v.register, e⟩, t1)
    | (Except.ok b, t1) => batchReadAux (i + 1) (acc ++ [(v.register, b)]) t1 rest

/-- `Client.batchRead` (entry point). -/
def batchRead (ops : List readOp) (t : ReadTransport) :
    Except batchError (List (Nat × List Nat)) × ReadTransport :=
  batchReadAux 0 [] t ops

/-- `Client.BatchWrite` from src/unnamed/part_002 lines 126-153: the
differential filter / validation stage, then `optimizeWrite`, then the
batch executor.  The first component is `none` on success, a validation
error (`Sum.inl`) or a batch-executor error (`Sum.inr`). -/
def BatchWrite (ops : List WriteReq) (oldData : Option Registers) (t : WriteTransport) :
    Option (MbError ⊕ batchError) × WriteTransport :=
  match buildDiffOpt ops oldData with
  | Except.error e => (some (Sum.inl e), t)
  | Except.ok diffOpt =>
    match batchWrite (optimizeWrite diffOpt) t with
    | (Except.error be, t1) => (some (Sum.inr be), t1)
    | (Except.ok _, t1) => (none, t1)

lemma except_bind_error {ε α β : Type} (e : ε) (f : α → Except ε β) :
    (Except.error e >>= f) = Except.error e := rfl

lemma except_bind_ok {ε α β : Type} (a : α) (f : α → Except ε β) :
    (Except.ok a >>= f : Except ε β) = f a := rfl

lemma convertWriteOps_eq_mapM (ops : List WriteReq) :
    convertWriteOps ops = ops.mapM convertWriteOp := by
  induction ops with
  | nil => rfl
  | cons a l ih =>
    rw [List.mapM_cons]
    cases h : convertWriteOp a with
    | error e => simp [convertWriteOps, h, except_bind_error]
    | ok w =>
      rw [convertWriteOps, h, ← ih, except_bind_ok]
      cases hl : convertWriteOps l with
      | error e => simp [except_bind_error]
      | ok ws => simp [except_bind_ok]

lemma diffConvertWriteOps_eq_filter (old : Registers) (ops : List WriteReq) :
    diffConvertWriteOps old ops =
      convertWriteOps (ops.filter fun op => old.lookup op.register != some op.value) := by
  induction ops with
  | nil => rfl
  | cons a l ih =>
    cases hl : old.lookup a.register with
    | none =>
      have hb : (old.lookup a.register != some a.value) = true := by
        rw [hl]; rfl
      simp only [List.filter_cons, hb, eq_self_iff_true, if_true]
      rw [diffConvertWriteOps, hl, convertWriteOps, ih]
    | some v =>
      by_cases hv : v = a.value
      · have hb : (old.lookup a.register != some a.value) = false := by
          rw [hl, hv]; simp
        simp only [List.filter_cons, hb, Bool.false_eq_true, if_false]
        rw [diffConvertWriteOps, hl]
        dsimp only
        rw [if_pos hv, ih]
      · have hb : (old.lookup a.register != some a.value) = true := by
          rw [hl]; simpa using hv
        simp only [List.filter_cons, hb, eq_self_iff_true, if_true]
        rw [diffConvertWriteOps, hl]
        dsimp only
        rw [if_neg hv, convertWriteOps, ih]

/-- Claim C5: with a non-nil snapshot, `BatchWrite`'s differential stage
retains a write iff its register is absent from the snapshot or its byte
representation differs from the snapshot's stored value (an exact byte
match is dropped); with a nil snapshot every write passes through
unfiltered.  Stated as: the code's filter/convert stage equals filtering
by that predicate followed by plain conversion, and the nil-snapshot
stage equals plain conversion of the whole list.  The stage is a pure
function of its two inputs (it is a `def` with no transport state). -/
theorem claim_C5_differential_filter :
    (∀ (ops : List WriteReq) (old : Registers),
      buildDiffOpt ops (some old) =
        (ops.filter fun op => old.lookup op.register != some op.value).mapM convertWriteOp) ∧
    (∀ ops : List WriteReq, buildDiffOpt ops none = ops.mapM convertWriteOp) := by
  constructor
  · intro ops old
    rw [buildDiffOpt, diffConvertWriteOps_eq_filter, convertWriteOps_eq_mapM]
  · intro ops
    rw [buildDiffOpt, convertWriteOps_eq_mapM]

lemma wrap64_eq_self (n : Int) (h1 : -(2 ^ 63) ≤ n) (h2 : n < 2 ^ 63) :
    wrap64 n = n := by
  have h63 : (2 : Int) ^ 63 = 9223372036854775808 := by norm_num
  have h64 : (2 : Int) ^ 64 = 18446744073709551616 := by norm_num
  rw [h63] at h1 h2
  unfold wrap64
  rw [h63, h64]
  rw [Int.emod_eq_of_lt (by omega) (by omega)]
  omega

lemma wrap64_overflow (n : Int) (h1 : 2 ^ 63 ≤ n) (h2 : n < 2 ^ 64) :
    wrap64 n = n - 2 ^ 64 := by
  have h63 : (2 : Int) ^ 63 = 9223372036854775808 := by norm_num
  have h64 : (2 : Int) ^ 64 = 18446744073709551616 := by norm_num
  rw [h63] at h1
  rw [h64] at h2
  unfold wrap64
  rw [h63, h64]
  have key : (n + 9223372036854775808) % 18446744073709551616 =
      (n + 9223372036854775808 - 18446744073709551616) % 18446744073709551616 := by
    have hself := Int.add_mul_emod_self_left
      (n + 9223372036854775808 - 18446744073709551616) 18446744073709551616 1
    rw [mul_one] at hself
    nth_rewrite 1 [show n + 9223372036854775808 =
      n + 9223372036854775808 - 18446744073709551616 + 18446744073709551616 by omega]
    exact hself
  rw [key, Int.emod_eq_of_lt (by omega) (by omega)]
  omega

/-- Claim C6 counterexample: `Slice.Get` is not total over all integer
inputs.  On the 3-byte slice `[8,9,10]` with `offset = 1` and
`size = maxInt64 = 2^63 - 1` (both non-negative, offset in range), the
fixed-width sum `offset+size` wraps to `-2^63`, every guard passes
(`offset ≥ 0`, `size ≥ 0`, `offset < len`, and `len ≤ wrapped sum` is
false because the wrapped sum is negative), and the final
`s[offset : offset+size]` panics with a slice-bounds violation
(modelled as `none`) instead of returning the in-range remainder. -/
theorem claim_C6_counterexample :
    (0 : Int) ≤ 1 ∧ (0 : Int) ≤ 2 ^ 63 - 1 ∧
    (1 : Int) < (([8, 9, 10] : Slice).length : Int) ∧
    Slice.Get [8, 9, 10] 1 (2 ^ 63 - 1) = none := by
  decide

/-- Claim C6 (amended): `Slice.Set` never fails for any integer offset —
negative or at-or-past-the-end offsets copy nothing and report 0, and
otherwise exactly the bytes that fit are copied with that count
reported, the buffer length never changing.  `Slice.Get` returns empty
for negative arguments and behaves as "drop `offset`, take `size`"
(empty at or past the end, the in-range remainder on overlap) whenever
the fixed-width sum `offset+size` does not overflow a 64-bit `int`
(i.e. `offset + size < 2^63`, which covers every realistic request);
but when `offset` is non-negative and in range and `offset+size`
mathematically reaches `2^63`, the wrapped sum goes negative and `Get`
panics (modelled `none`) rather than returning a result — so totality
over all integer inputs fails for `Get`, exactly at those overflowing
inputs. -/
theorem claim_C6_slice_bounded_behavior :
    (∀ (s : Slice) (offset size : Int),
      offset < 0 ∨ size < 0 → Slice.Get s offset size = some []) ∧
    (∀ (s : Slice) (offset size : Int), 0 ≤ offset → 0 ≤ size →
      offset + size < 2 ^ 63 →
      Slice.Get s offset size = some ((s.drop offset.toNat).take size.toNat)) ∧
    (∀ (s : Slice) (offset size : Int), 0 ≤ offset → 0 ≤ size →
      offset < (s.length : Int) → offset < 2 ^ 63 → size < 2 ^ 63 →
      2 ^ 63 ≤ offset + size → Slice.Get s offset size = none) ∧
    (∀ (s : Slice) (offset : Int) (data : List Nat),
      Slice.Set s offset data =
        (if offset < 0 then (s, 0)
         else (s.take offset.toNat ++ data.take (s.length - offset.toNat) ++
                 s.drop (offset.toNat + data.length),
               min (s.length - offset.toNat) data.length))) ∧
    (∀ (s : Slice) (offset : Int) (data : List Nat),
      ((Slice.Set s offset data).1).length = s.length) := by
  have hset : ∀ (s : Slice) (offset : Int) (data : List Nat),
      Slice.Set s offset data =
        (if offset < 0 then (s, 0)
         else (s.take offset.toNat ++ data.take (s.length - offset.toNat) ++
                 s.drop (offset.toNat + data.length),
               min (s.length - offset.toNat) data.length)) := by
    intro s offset data
    by_cases hneg : offset < 0
    · rw [Slice.Set, if_pos (Or.inr hneg), if_pos hneg]
    · by_cases hbig : (s.length : Int) ≤ offset
      · rw [Slice.Set, if_pos (Or.inl hbig), if_neg hneg]
        have h0 : s.length - offset.toNat = 0 := by omega
        have h1 : s.take offset.toNat = s := List.take_of_length_le (by omega)
        have h2 : s.drop (offset.toNat + data.length) = [] :=
          List.drop_eq_nil_of_le (by omega)
        rw [h0, h1, h2]
        simp
      · rw [Slice.Set, if_neg (by push_neg; omega), if_neg hneg]
        dsimp only
        by_cases hfit : data.length ≤ s.length - offset.toNat
        · have hm : min (s.length - offset.toNat) data.length = data.length :=
            Nat.min_eq_right hfit
          rw [hm, List.take_of_length_le hfit, List.take_length]
        · have hm : min (s.length - offset.toNat) data.length = s.length - offset.toNat :=
            Nat.min_eq_left (by omega)
          rw [hm]
          have hd1 : s.drop (offset.toNat + (s.length - offset.toNat)) = [] :=
            List.drop_eq_nil_of_le (by omega)
          have hd2 : s.drop (offset.toNat + data.length) = [] :=
            List.drop_eq_nil_of_le (by omega)
          rw [hd1, hd2]
  refine ⟨?_, ?_, ?_, hset, ?_⟩
  · intro s offset size h
    rw [Slice.Get, if_pos h]
  · intro s offset size h0 h1 hlt
    have h63 : (2 : Int) ^ 63 = 9223372036854775808 := by norm_num
    rw [h63] at hlt
    have hw : wrap64 (offset + size) = offset + size :=
      wrap64_eq_self _ (by rw [h63]; omega) (by rw [h63]; omega)
    rw [Slice.Get, if_neg (by push_neg; exact ⟨h0, h1⟩), hw]
    by_cases hbig : (s.length : Int) ≤ offset
    · rw [if_pos hbig, List.drop_eq_nil_of_le (by omega), List.take_nil]
    · rw [if_neg hbig]
      by_cases h3 : (s.length : Int) ≤ offset + size
      · rw [if_pos h3, List.take_of_length_le (by rw [List.length_drop]; omega)]
      · rw [if_neg h3, if_neg (by omega)]
        have harg : offset + size - offset = size := by omega
        rw [harg]
  · intro s offset size h0 h1 hlen hof hsz hsum
    have h63 : (2 : Int) ^ 63 = 9223372036854775808 := by norm_num
    have h64 : (2 : Int) ^ 64 = 18446744073709551616 := by norm_num
    rw [h63] at hof hsz hsum
    have hw : wrap64 (offset + size) = offset + size - 2 ^ 64 :=
      wrap64_overflow _ (by rw [h63]; omega) (by rw [h64]; omega)
    rw [h64] at hw
    have hlenpos : (0 : Int) ≤ (s.length : Int) := Int.natCast_nonneg _
    rw [Slice.Get, if_neg (by push_neg; exact ⟨h0, h1⟩), if_neg (by omega), hw,
      if_neg (by omega), if_pos (by omega)]
  · intro s offset data
    rw [hset]
    by_cases hneg : offset < 0
    · rw [if_pos hneg]
    · rw [if_neg hneg]
      simp only [List.length_append, List.length_take, List.length_drop]
      omega

/-- Claim C6 amended-claim witness: the amended theorem instantiated at
the repository's own slice-test vectors (negative size, overlap) plus an
overflowing size that panics, and a concrete in-range `Set`. -/
theorem claim_C6_slice_bounded_behavior_witness :
    Slice.Get [3, 4] 1 (-1) = some [] ∧
    Slice.Get [3, 4, 5] 1 3 = some [4, 5] ∧
    Slice.Get [5, 6, 7] 2 (2 ^ 63 - 2) = none ∧
    Slice.Set [1, 2, 3, 4] 2 [9, 9, 9] = ([1, 2, 9, 9], 2) := by
  refine ⟨?_, ?_, ?_, ?_⟩
  · exact claim_C6_slice_bounded_behavior.1 [3, 4] 1 (-1) (Or.inr (by decide))
  · exact (claim_C6_slice_bounded_behavior.2.1 [3, 4, 5] 1 3 (by decide) (by decide)
      (by decide)).trans (by decide)
  · exact claim_C6_slice_bounded_behavior.2.2.1 [5, 6, 7] 2 (2 ^ 63 - 2) (by decide)
      (by decide) (by decide) (by decide) (by decide) (by decide)
  · exact (claim_C6_slice_bounded_behavior.2.2.2.1 [1, 2, 3, 4] 2 [9, 9, 9]).trans
      (by decide)

/-- Claim C4 counterexample: with a transport scripted to fail once and
then succeed, the current `Client.write` issues exactly one call (its
trace is one op) and surfaces the first error, whereas the claimed
once-retried semantics (exhibited by the legacy client on the same
script) would have retried with identical arguments and succeeded.  This
refutes "every failing transport call is retried exactly once" for the
code's executor. -/
theorem claim_C4_counterexample :
    clientWrite ⟨5, 1, [0, 7]⟩ ⟨[some 3, none], []⟩ =
      (some 3, ⟨[none], [⟨5, 1, [0, 7]⟩]⟩) ∧
    clientWriteLegacy ⟨5, 1, [0, 7]⟩ ⟨[some 3, none], []⟩ =
      (none, ⟨[], [⟨5, 1, [0, 7]⟩, ⟨5, 1, [0, 7]⟩]⟩) := by
  constructor
  · rfl
  · rfl

/-- Claim C4 (amended): the current `Client.read`/`Client.write` issue
exactly one transport call per operation and surface its outcome
directly, with no retry; the retry-once-with-identical-arguments
behaviour belongs to the legacy client (src/unnamed/part_001), whose
`read`/`write` issue the same op a second time after a first failure and
return the second outcome, and issue exactly one call on success. -/
theorem claim_C4_no_retry_current_retry_once_legacy :
    (∀ (w : writeOp) (t : WriteTransport),
      clientWrite w t = (t.oracle.headD none, ⟨t.oracle.tail, t.trace ++ [w]⟩)) ∧
    (∀ (r : readOp) (t : ReadTransport),
      clientRead r t = (t.oracle.headD (Except.ok []), ⟨t.oracle.tail, t.trace ++ [r]⟩)) ∧
    (∀ (w : writeOp) (e : Nat) (rest : List (Option Nat)) (tr : List writeOp),
      clientWriteLegacy w ⟨some e :: rest, tr⟩ =
        (rest.headD none, ⟨rest.tail, tr ++ [w, w]⟩)) ∧
    (∀ (w : writeOp) (rest : List (Option Nat)) (tr : List writeOp),
      clientWriteLegacy w ⟨none :: rest, tr⟩ = (none, ⟨rest, tr ++ [w]⟩)) ∧
    (∀ (r : readOp) (e : Nat) (rest : List (Except Nat (List Nat))) (tr : List readOp),
      clientReadLegacy r ⟨Except.error e :: rest, tr⟩ =
        (rest.headD (Except.ok []), ⟨rest.tail, tr ++ [r, r]⟩)) ∧
    (∀ (r : readOp) (b : List Nat) (rest : List (Except Nat (List Nat))) (tr : List readOp),
      clientReadLegacy r ⟨Except.ok b :: rest, tr⟩ = (Except.ok b, ⟨rest, tr ++ [r]⟩)) := by
  refine ⟨fun w t => rfl, fun r t => rfl, fun w e rest tr => ?_, fun w rest tr => ?_,
    fun r e rest tr => ?_, fun r b rest tr => ?_⟩
  · have h1 : clientWriteLegacy w ⟨some e :: rest, tr⟩ =
        (rest.headD none, ⟨rest.tail, (tr ++ [w]) ++ [w]⟩) := rfl
    rw [h1, List.append_assoc]
    rfl
  · rfl
  · have h1 : clientReadLegacy r ⟨Except.error e :: rest, tr⟩ =
        (rest.headD (Except.ok []), ⟨rest.tail, (tr ++ [r]) ++ [r]⟩) := rfl
    rw [h1, List.append_assoc]
    rfl
  · rfl

lemma batchWriteAux_abort (pre : List writeOp) :
    ∀ (post : List writeOp) (v : writeOp) (e : Nat) (orest : List (Option Nat))
      (i : Nat) (tr : List writeOp),
      batchWriteAux i ⟨List.replicate pre.length none ++ some e :: orest, tr⟩
          (pre ++ v :: post) =
        (Except.error ⟨i + pre.length + 1, v.register, e⟩, ⟨orest, tr ++ pre ++ [v]⟩) := by
  induction pre with
  | nil =>
    intro post v e orest i tr
    simp only [List.replicate, List.length_nil, List.nil_append, List.append_nil]
    rfl
  | cons p pre ih =>
    intro post v e orest i tr
    show batchWriteAux i
        ⟨none :: (List.replicate pre.length none ++ some e :: orest), tr⟩
        (p :: (pre ++ v :: post)) = _
    rw [batchWriteAux]
    show batchWriteAux (i + 1)
        ⟨List.replicate pre.length none ++ some e :: orest, tr ++ [p]⟩ (pre ++ v :: post) = _
    rw [ih post v e orest (i + 1) (tr ++ [p])]
    have hpos : i + 1 + pre.length + 1 = i + (p :: pre).length + 1 := by
      simp [List.length_cons]; omega
    have htr : (tr ++ [p]) ++ pre ++ [v] = tr ++ (p :: pre) ++ [v] := by
      simp
    rw [hpos, htr]

lemma batchReadAux_abort (pre : List readOp) :
    ∀ (g : readOp → List Nat) (post : List readOp) (v : readOp) (e : Nat)
      (orest : List (Except Nat (List Nat))) (i : Nat) (acc : List (Nat × List Nat))
      (tr : List readOp),
      batchReadAux i acc
          ⟨(pre.map fun p => Except.ok (g p)) ++ Except.error e :: orest, tr⟩
          (pre ++ v :: post) =
        (Except.error ⟨i + pre.length + 1, v.register, e⟩, ⟨orest, tr ++ pre ++ [v]⟩) := by
  induction pre with
  | nil =>
    intro g post v e orest i acc tr
    simp only [List.map_nil, List.length_nil, List.nil_append, List.append_nil]
    rfl
  | cons p pre ih =>
    intro g post v e orest i acc tr
    show batchReadAux i acc
        ⟨Except.ok (g p) :: ((pre.map fun p => Except.ok (g p)) ++ Except.error e :: orest), tr⟩
        (p :: (pre ++ v :: post)) = _
    rw [batchReadAux]
    show batchReadAux (i + 1) (acc ++ [(p.register, g p)])
        ⟨(pre.map fun p => Except.ok (g p)) ++ Except.error e :: orest, tr ++ [p]⟩
        (pre ++ v :: post) = _
    rw [ih g post v e orest (i + 1) (acc ++ [(p.register, g p)]) (tr ++ [p])]
    have hpos : i + 1 + pre.length + 1 = i + (p :: pre).length + 1 := by
      simp [List.length_cons]; omega
    have htr : (tr ++ [p]) ++ pre ++ [v] = tr ++ (p :: pre) ++ [v] := by
      simp
    rw [hpos, htr]

/-- Claim C9: when the transport call for the op at (0-based) position
`pre.length` of an executed batch fails with `e` after every earlier op
succeeded, both batch executors return an error carrying the 1-based
position `pre.length + 1`, the failing op's starting register and the
wrapped transport error; the call trace is exactly the earlier ops
followed by the failing op — no later op of the batch is attempted, and
the already-issued earlier calls stay issued (no rollback calls are
made). -/
theorem claim_C9_batch_abort_wraps_position_and_register :
    (∀ (pre post : List writeOp) (v : writeOp) (e : Nat) (orest : List (Option Nat)),
      batchWrite (pre ++ v :: post) ⟨List.replicate pre.length none ++ some e :: orest, []⟩ =
        (Except.error ⟨pre.length + 1, v.register, e⟩, ⟨orest, pre ++ [v]⟩)) ∧
    (∀ (pre : List readOp) (g : readOp → List Nat) (post : List readOp) (v : readOp)
      (e : Nat) (orest : List (Except Nat (List Nat))),
      batchRead (pre ++ v :: post)
          ⟨(pre.map fun p => Except.ok (g p)) ++ Except.error e :: orest, []⟩ =
        (Except.error ⟨pre.length + 1, v.register, e⟩, ⟨orest, pre ++ [v]⟩)) := by
  constructor
  · intro pre post v e orest
    rw [batchWrite, batchWriteAux_abort pre post v e orest 0 []]
    rw [List.nil_append, Nat.zero_add]
  · intro pre g post v e orest
    rw [batchRead, batchReadAux_abort pre g post v e orest 0 [] []]
    rw [List.nil_append, Nat.zero_add]

/-- Claim C2: the flat buffer `BatchRead` creates is
`containers.NewSlice(maxUint16)` — `maxUint16 = 65536` **bytes**, not the
65536 registers x 2 bytes = 131072 bytes the claim requires.  At
register 32768 the byte offset `2*32768 = 65536` is already at the
buffer's end: `Set` stores nothing (count 0, buffer unchanged) and `Get`
returns the empty result, so reassembly and extraction are truncated for
every register ≥ 32768, contradicting the claim (and the code's own
comment that `maxUint16` "covers the maximum number of Modbus registers"
— the missing factor 2 is a slip). -/
theorem claim_C2_reassembly_buffer_half_sized :
    (NewSlice maxUint16).length = 65536 ∧
    2 * 65535 + 2 ≤ 131072 ∧ (NewSlice maxUint16).length < 131072 ∧
    Slice.Get (NewSlice maxUint16) (2 * 32768) 2 = some [] ∧
    Slice.Set (NewSlice maxUint16) (2 * 32768) [1, 2] = (NewSlice maxUint16, 0) := by
  have hlen : (NewSlice maxUint16).length = 65536 := by
    show (List.replicate maxUint16 0).length = 65536
    rw [List.length_replicate]
    rfl
  refine ⟨hlen, by norm_num, by rw [hlen]; norm_num, ?_, ?_⟩
  · rw [Slice.Get, if_neg (by norm_num), if_pos (by rw [hlen]; norm_num)]
  · rw [Slice.Set, if_pos (Or.inl (by rw [hlen]; norm_num))]

/-- Claim C3 counterexample: a write request whose value has odd byte
length (3 bytes) is not rejected — `convertWriteOp` accepts it with the
truncated quantity 1, `BatchWrite` performs it, and the odd 3-byte value
reaches the transport (the trace holds the call), so validation neither
fails with `OddByteNumber` nor prevents the wire call.  The current
package does not even produce `oddByteNumber` from conversion. -/
theorem claim_C3_counterexample :
    convertWriteOp ⟨0, [1, 2, 3]⟩ = Except.ok ⟨0, 1, [1, 2, 3]⟩ ∧
    BatchWrite [⟨0, [1, 2, 3]⟩] none ⟨[none], []⟩ =
      (none, ⟨[], [⟨0, 1, [1, 2, 3]⟩]⟩) := by
  constructor
  · rfl
  · rfl

/-- Claim C3 (amended): the current code does not validate byte-length
parity: `convertWriteOp` only fails (with `TooManyRegisters`) when the
truncated quantity `len(value)/2` exceeds 123, and never yields
`OddByteNumber`; any validation failure still happens before any
transport call (`BatchWrite` returns with the transport untouched).
The odd-length rejection with `OddByteNumber` exists only in the legacy
validator of src/unnamed/part_001. -/
theorem claim_C3_no_odd_byte_validation :
    (∀ w : WriteReq, convertWriteOp w =
      (if w.value.length / 2 % u16mod ≤ maxFunc16Quantity
       then Except.ok ⟨w.register, w.value.length / 2 % u16mod, w.value⟩
       else Except.error (MbError.tooManyRegisters maxFunc16Quantity))) ∧
    (∀ w : WriteReq, convertWriteOp w ≠ Except.error MbError.oddByteNumber) ∧
    (∀ (ops : List WriteReq) (old : Option Registers) (t : WriteTransport) (e : MbError),
      buildDiffOpt ops old = Except.error e →
      BatchWrite ops old t = (some (Sum.inl e), t)) ∧
    (∀ w : writeOp, w.value.length % 2 = 1 →
      writeOpValidateLegacy w = some MbError.oddByteNumber) := by
  have hconv : ∀ w : WriteReq, convertWriteOp w =
      (if w.value.length / 2 % u16mod ≤ maxFunc16Quantity
       then Except.ok ⟨w.register, w.value.length / 2 % u16mod, w.value⟩
       else Except.error (MbError.tooManyRegisters maxFunc16Quantity)) := by
    intro w
    rw [convertWriteOp, writeOp.validate]
    by_cases h : maxFunc16Quantity < w.value.length / 2 % u16mod
    · rw [if_pos h, if_neg (by omega)]
    · rw [if_neg h, if_pos (by omega)]
  refine ⟨hconv, ?_, ?_, ?_⟩
  · intro w
    rw [hconv w]
    by_cases h : w.value.length / 2 % u16mod ≤ maxFunc16Quantity
    · rw [if_pos h]
      intro hc
      exact Except.noConfusion hc
    · rw [if_neg h]
      intro hc
      exact MbError.noConfusion (Except.error.inj hc)
  · intro ops old t e he
    rw [BatchWrite, he]
  · intro w hw
    rw [writeOpValidateLegacy, if_pos (by omega)]

/-- Claim C3 amended-claim witness: instantiating the validation-precedes-
transport clause at a request of 250 bytes (truncated quantity 125 > 123)
— validation fails with `TooManyRegisters` and the transport state is
returned untouched; and the legacy-validator clause at an odd 3-byte op. -/
theorem claim_C3_no_odd_byte_validation_witness :
    BatchWrite [⟨0, List.replicate 250 0⟩] none ⟨[none], []⟩ =
      (some (Sum.inl (MbError.tooManyRegisters 123)), ⟨[none], []⟩) ∧
    writeOpValidateLegacy ⟨0, 1, [1, 2, 3]⟩ = some MbError.oddByteNumber := by
  constructor
  · exact claim_C3_no_odd_byte_validation.2.2.1 [⟨0, List.replicate 250 0⟩] none ⟨[none], []⟩
      (MbError.tooManyRegisters 123) rfl
  · exact claim_C3_no_odd_byte_validation.2.2.2 ⟨0, 1, [1, 2, 3]⟩ (by decide)

/-- Interval order used for sorted, non-overlapping op lists: `a`'s
register range ends at or before `b`'s begins. -/
def opEndLe (a b : readOp) : Prop := a.register + a.quantity ≤ b.register

instance (a b : readOp) : Decidable (opEndLe a b) :=
  inferInstanceAs (Decidable (_ ≤ _))

instance : IsTrans readOp opEndLe :=
  ⟨fun _ b _ h1 h2 => le_trans h1 (le_trans (Nat.le_add_right b.register b.quantity) h2)⟩

instance : IsTotal readOp (fun a b => a.register ≤ b.register) :=
  ⟨fun a b => Nat.le_total a.register b.register⟩

instance : IsTrans readOp (fun a b => a.register ≤ b.register) :=
  ⟨fun _ _ _ h1 h2 => Nat.le_trans h1 h2⟩

/-- A well-formed read op as the claims quantify over: a nonempty
register range that fits the 16-bit address space and respects the read
ceiling (what `readOp.validate` guarantees for ops fed to the
optimizer). -/
def readOpOK (x : readOp) : Prop :=
  1 ≤ x.quantity ∧ x.quantity ≤ maxFunc3Quantity ∧ x.register + x.quantity ≤ u16mod

instance (x : readOp) : Decidable (readOpOK x) :=
  inferInstanceAs (Decidable (_ ∧ _))

/-- Two read ops have non-overlapping (disjoint) register ranges. -/
def rangesDisjoint (a b : readOp) : Prop :=
  a.register + a.quantity ≤ b.register ∨ b.register + b.quantity ≤ a.register

instance (a b : readOp) : Decidable (rangesDisjoint a b) :=
  inferInstanceAs (Decidable (_ ∨ _))

/-- `o`'s register range contains `x`'s. -/
def covers (o x : readOp) : Prop :=
  o.register ≤ x.register ∧ x.register + x.quantity ≤ o.register + o.quantity

instance (o x : readOp) : Decidable (covers o x) :=
  inferInstanceAs (Decidable (_ ∧ _))

/-- The merge condition of `optimizeRead` in plain `Nat` arithmetic
(equivalent to the `uint16` condition on well-formed sorted inputs). -/
def fireR (op x : readOp) : Prop :=
  x.register = op.register + op.quantity ∧ op.quantity + x.quantity ≤ maxFunc3Quantity

instance (op x : readOp) : Decidable (fireR op x) :=
  inferInstanceAs (Decidable (_ ∧ _))

/-- Greedy coalescing of a sorted op list (the clean functional reading
of `optimizeRead`'s scan, proved equal to it on sorted, disjoint,
well-formed inputs). -/
def coalesceRead : readOp → List readOp → List readOp
  | op, [] => [op]
  | op, x :: rest =>
    if fireR op x then coalesceRead ⟨op.register, op.quantity + x.quantity⟩ rest
    else op :: coalesceRead x rest

/-- `coalesceRead` lifted to a whole list. -/
def coalesceFromRead : List readOp → List readOp
  | [] => []
  | op :: rest => coalesceRead op rest

lemma foldl_readMergeStep_shift (xs : List readOp) :
    ∀ (op : readOp) (k : Nat),
      xs.foldl readMergeStep (op, k) =
        ((xs.foldl readMergeStep (op, 0)).1, k + (xs.foldl readMergeStep (op, 0)).2) := by
  induction xs with
  | nil => intro op k; simp
  | cons x rest ih =>
    intro op k
    by_cases h : x.register = (op.register + op.quantity) % u16mod ∧
        (op.quantity + x.quantity) % u16mod ≤ maxFunc3Quantity
    · rw [List.foldl_cons, List.foldl_cons, readMergeStep, if_pos h, readMergeStep, if_pos h]
      rw [ih _ (k + 1), ih _ 1]
      refine Prod.ext rfl ?_
      simp only
      omega
    · rw [List.foldl_cons, List.foldl_cons, readMergeStep, if_neg h, readMergeStep, if_neg h]
      exact ih op k

lemma foldl_readMergeStep_no_fire (xs : List readOp) :
    ∀ (op : readOp),
      (∀ x ∈ xs, ¬(x.register = (op.register + op.quantity) % u16mod ∧
        (op.quantity + x.quantity) % u16mod ≤ maxFunc3Quantity)) →
      ∀ k, xs.foldl readMergeStep (op, k) = (op, k) := by
  induction xs with
  | nil => intro op h k; rfl
  | cons x rest ih =>
    intro op h k
    rw [List.foldl_cons, readMergeStep, if_neg (h x (List.mem_cons_self x rest))]
    exact ih op (fun y hy => h y (List.mem_cons_of_mem x hy)) k

lemma readMergeStep_cond_iff (op x : readOp)
    (hq : op.quantity ≤ maxFunc3Quantity) (hxq : x.quantity ≤ maxFunc3Quantity)
    (hle : op.register + op.quantity ≤ x.register)
    (hfit : x.register + x.quantity ≤ u16mod) (hx1 : 1 ≤ x.quantity) :
    (x.register = (op.register + op.quantity) % u16mod ∧
      (op.quantity + x.quantity) % u16mod ≤ maxFunc3Quantity) ↔ fireR op x := by
  have hu : u16mod = 65536 := rfl
  have hc : maxFunc3Quantity = 2047 := rfl
  have hend : (op.register + op.quantity) % u16mod = op.register + op.quantity :=
    Nat.mod_eq_of_lt (by omega)
  have hsum : (op.quantity + x.quantity) % u16mod = op.quantity + x.quantity :=
    Nat.mod_eq_of_lt (by omega)
  rw [fireR, hend, hsum]

lemma chain_imp_all (xs : List readOp) :
    ∀ (op : readOp), List.Chain opEndLe op xs →
      ∀ x ∈ xs, op.register + op.quantity ≤ x.register := by
  induction xs with
  | nil => intro op _ x hx; cases hx
  | cons y rest ih =>
    intro op hch x hx
    rw [List.chain_cons] at hch
    rcases List.mem_cons.mp hx with rfl | hx2
    · exact hch.1
    · have h2 := ih y hch.2 x hx2
      have h3 : y.register ≤ y.register + y.quantity := Nat.le_add_right _ _
      exact le_trans (le_trans hch.1 h3) h2

lemma chain_of_end_eq (l : List readOp) (a b : readOp)
    (h : a.register + a.quantity = b.register + b.quantity)
    (hch : List.Chain opEndLe a l) : List.Chain opEndLe b l := by
  cases l with
  | nil => exact List.Chain.nil
  | cons y t =>
    rw [List.chain_cons] at hch ⊢
    refine ⟨?_, hch.2⟩
    have h1 := hch.1
    unfold opEndLe at h1 ⊢
    omega

lemma innerScanRead (xs : List readOp) :
    ∀ (op : readOp), List.Chain opEndLe op xs → (∀ x ∈ xs, readOpOK x) →
      op.quantity ≤ maxFunc3Quantity → op.register + op.quantity ≤ u16mod →
      ∃ n OP, n ≤ xs.length ∧
        xs.foldl readMergeStep (op, 0) = (OP, n) ∧
        coalesceRead op xs = OP :: coalesceFromRead (xs.drop n) := by
  induction xs with
  | nil =>
    intro op _ _ _ _
    exact ⟨0, op, Nat.le_refl _, rfl, rfl⟩
  | cons x rest ih =>
    intro op hch hOK hq hfit
    rw [List.chain_cons] at hch
    have hxOK := hOK x (List.mem_cons_self x rest)
    have hiff := readMergeStep_cond_iff op x hq hxOK.2.1 hch.1 hxOK.2.2 hxOK.1
    by_cases hf : fireR op x
    · have hcond := hiff.mpr hf
      have hmod : (op.quantity + x.quantity) % u16mod = op.quantity + x.quantity :=
        Nat.mod_eq_of_lt (by
          have hu : u16mod = 65536 := rfl
          have hc : maxFunc3Quantity = 2047 := rfl
          have h1 := hxOK.2.1
          omega)
      have hstep : readMergeStep (op, 0) x =
          ((⟨op.register, op.quantity + x.quantity⟩ : readOp), 1) := by
        rw [readMergeStep, if_pos hcond, hmod]
      have hend : x.register + x.quantity =
          op.register + (op.quantity + x.quantity) := by
        have h1 := hf.1
        omega
      have hch2 : List.Chain opEndLe (⟨op.register, op.quantity + x.quantity⟩ : readOp) rest :=
        chain_of_end_eq rest x ⟨op.register, op.quantity + x.quantity⟩ hend hch.2
      obtain ⟨n, OP, hn, hfold, hco⟩ :=
        ih ⟨op.register, op.quantity + x.quantity⟩ hch2
          (fun y hy => hOK y (List.mem_cons_of_mem x hy)) hf.2
          (by
            show op.register + (op.quantity + x.quantity) ≤ u16mod
            have h1 := hxOK.2.2
            have h2 := hf.1
            omega)
      refine ⟨n + 1, OP, by simpa using Nat.succ_le_succ hn, ?_, ?_⟩
      · rw [List.foldl_cons, hstep, foldl_readMergeStep_shift, hfold]
        exact Prod.ext rfl (Nat.add_comm 1 n)
      · rw [coalesceRead, if_pos hf, hco, List.drop_succ_cons]
    · have hcond : ¬(x.register = (op.register + op.quantity) % u16mod ∧
          (op.quantity + x.quantity) % u16mod ≤ maxFunc3Quantity) := fun hc => hf (hiff.mp hc)
      have hnofire : ∀ y ∈ rest, ¬(y.register = (op.register + op.quantity) % u16mod ∧
          (op.quantity + y.quantity) % u16mod ≤ maxFunc3Quantity) := by
        intro y hy hc
        have h1 : x.register + x.quantity ≤ y.register := chain_imp_all rest x hch.2 y hy
        have h2 : op.register + op.quantity ≤ x.register := hch.1
        have h3 : (op.register + op.quantity) % u16mod ≤ op.register + op.quantity :=
          Nat.mod_le _ _
        have h4 := hxOK.1
        have h5 := hc.1
        omega
      refine ⟨0, op, Nat.zero_le _, ?_, ?_⟩
      · rw [List.foldl_cons, readMergeStep, if_neg hcond]
        exact foldl_readMergeStep_no_fire rest op hnofire 0
      · rw [coalesceRead, if_neg hf]
        rfl

lemma optimizeReadAux_eq_coalesce (l : List readOp)
    (hchain : List.Chain' opEndLe l) (hOK : ∀ x ∈ l, readOpOK x) :
    ∀ (fuel i : Nat), l.length - i ≤ fuel →
      optimizeReadAux l fuel i = coalesceFromRead (l.drop i) := by
  intro fuel
  induction fuel with
  | zero =>
    intro i hle
    rw [List.drop_eq_nil_of_le (by omega)]
    rfl
  | succ fuel ih =>
    intro i hle
    by_cases h : i < l.length
    · have hdrop : l.drop i = l[i] :: l.drop (i + 1) := List.drop_eq_getElem_cons h
      have hch2 : List.Chain' opEndLe (l.drop i) := hchain.sublist (List.drop_sublist i l)
      have hch3 : List.Chain opEndLe l[i] (l.drop (i + 1)) := by
        rw [hdrop] at hch2
        exact hch2
      have hOPok : readOpOK l[i] := hOK _ (List.getElem_mem h)
      obtain ⟨n, OP, hn, hfold, hco⟩ :=
        innerScanRead (l.drop (i + 1)) l[i] hch3
          (fun y hy => hOK y (List.mem_of_mem_drop hy)) hOPok.2.1 hOPok.2.2
      simp only [optimizeReadAux, dif_pos h]
      rw [hfold]
      show OP :: optimizeReadAux l fuel (i + n + 1) = _
      rw [ih (i + n + 1) (by omega)]
      rw [hdrop]
      show OP :: coalesceFromRead (l.drop (i + n + 1)) = coalesceRead l[i] (l.drop (i + 1))
      rw [hco, List.drop_drop]
      have harith : i + 1 + n = i + n + 1 := by omega
      rw [harith]
    · simp only [optimizeReadAux, dif_neg h]
      rw [List.drop_eq_nil_of_le (by omega)]
      rfl

lemma sortReadOps_mem (l : List readOp) (x : readOp) :
    x ∈ sortReadOps l ↔ x ∈ l :=
  (List.perm_insertionSort _ l).mem_iff

lemma sortReadOps_chain (l : List readOp)
    (h1 : ∀ x ∈ l, 1 ≤ x.quantity) (hdis : List.Pairwise rangesDisjoint l) :
    List.Chain' opEndLe (sortReadOps l) := by
  have hperm : (sortReadOps l).Perm l := List.perm_insertionSort _ l
  have hsorted : List.Sorted (fun a b => a.register ≤ b.register) (sortReadOps l) :=
    List.sorted_insertionSort _ l
  have hdis2 : List.Pairwise rangesDisjoint (sortReadOps l) :=
    (hperm.pairwise_iff (fun hxy => hxy.symm)).mpr hdis
  have hboth := List.Pairwise.and hsorted hdis2
  have himp : List.Pairwise opEndLe (sortReadOps l) := by
    refine hboth.imp_of_mem ?_
    intro a b _ hb hab
    have hb1 : 1 ≤ b.quantity := h1 b (hperm.mem_iff.mp hb)
    obtain ⟨h2, hc⟩ := hab
    unfold rangesDisjoint at hc
    unfold opEndLe
    omega
  exact himp.chain'

lemma optimizeRead_eq_coalesce (l : List readOp)
    (hOK : ∀ x ∈ l, readOpOK x) (hdis : List.Pairwise rangesDisjoint l) :
    optimizeRead l = coalesceFromRead (sortReadOps l) := by
  have hOK2 : ∀ x ∈ sortReadOps l, readOpOK x :=
    fun x hx => hOK x ((sortReadOps_mem l x).mp hx)
  have hch := sortReadOps_chain l (fun x hx => (hOK x hx).1) hdis
  exact optimizeReadAux_eq_coalesce (sortReadOps l) hch hOK2 (sortReadOps l).length 0
    (by omega)

lemma coalesceRead_cover_head (xs : List readOp) :
    ∀ op : readOp, ∃ o ∈ coalesceRead op xs, o.register = op.register ∧ covers o op := by
  induction xs with
  | nil =>
    intro op
    refine ⟨op, ?_, rfl, le_refl _, le_refl _⟩
    rw [coalesceRead]
    exact List.mem_cons_self _ _
  | cons x rest ih =>
    intro op
    by_cases hf : fireR op x
    · obtain ⟨o, ho, hreg, hcov⟩ := ih ⟨op.register, op.quantity + x.quantity⟩
      obtain ⟨hc1, hc2⟩ := hcov
      have hc2a : op.register + (op.quantity + x.quantity) ≤ o.register + o.quantity := hc2
      refine ⟨o, ?_, hreg, ?_, ?_⟩
      · rw [coalesceRead, if_pos hf]
        exact ho
      · exact hc1
      · omega
    · refine ⟨op, ?_, rfl, le_refl _, le_refl _⟩
      rw [coalesceRead, if_neg hf]
      exact List.mem_cons_self _ _

lemma coalesceRead_pair (xs : List readOp) :
    ∀ op : readOp, (∀ x ∈ xs, 1 ≤ x.quantity) →
      ((∀ (b : readOp) (rest2 : List readOp), xs = b :: rest2 →
        b.register = op.register + op.quantity →
        ∃ o ∈ coalesceRead op xs, o.register = op.register ∧ covers o op ∧
          (covers o b ↔ op.quantity + b.quantity ≤ maxFunc3Quantity) ∧
          (maxFunc3Quantity < op.quantity + b.quantity →
            ∃ o2 ∈ coalesceRead op xs, o2.register = b.register ∧ covers o2 b ∧
              o.register + o.quantity ≤ o2.register)) ∧
      (∀ (i : Nat) (h1 : i < xs.length) (h2 : i + 1 < xs.length),
        (xs.get ⟨i + 1, h2⟩).register =
          (xs.get ⟨i, h1⟩).register + (xs.get ⟨i, h1⟩).quantity →
        ∃ o ∈ coalesceRead op xs, covers o (xs.get ⟨i, h1⟩) ∧
          (covers o (xs.get ⟨i + 1, h2⟩) ↔
            (xs.get ⟨i, h1⟩).register + (xs.get ⟨i, h1⟩).quantity - o.register +
              (xs.get ⟨i + 1, h2⟩).quantity ≤ maxFunc3Quantity) ∧
          (¬ covers o (xs.get ⟨i + 1, h2⟩) →
            ∃ o2 ∈ coalesceRead op xs, o2.register = (xs.get ⟨i + 1, h2⟩).register ∧
              covers o2 (xs.get ⟨i + 1, h2⟩) ∧ o.register + o.quantity ≤ o2.register))) := by
  induction xs with
  | nil =>
    intro op _
    constructor
    · intro b rest2 heq
      exact List.noConfusion heq
    · intro i h1 h2
      simp at h2
  | cons x rest ih =>
    intro op hq
    have hqx : 1 ≤ x.quantity := hq x (List.mem_cons_self x rest)
    have hqrest : ∀ y ∈ rest, 1 ≤ y.quantity := fun y hy => hq y (List.mem_cons_of_mem x hy)
    constructor
    · intro b rest2 heq hadj
      injection heq with hb hrest2
      subst hb
      subst hrest2
      by_cases hsum : op.quantity + x.quantity ≤ maxFunc3Quantity
      · have hf : fireR op x := ⟨hadj, hsum⟩
        obtain ⟨o, ho, hreg, hcov⟩ :=
          coalesceRead_cover_head rest ⟨op.register, op.quantity + x.quantity⟩
        have hreg2 : o.register = op.register := hreg
        obtain ⟨hc1, hc2⟩ := hcov
        have hc2a : op.register + (op.quantity + x.quantity) ≤ o.register + o.quantity := hc2
        refine ⟨o, ?_, hreg2, ⟨by omega, by omega⟩, ?_, ?_⟩
        · rw [coalesceRead, if_pos hf]
          exact ho
        · constructor
          · intro _
            exact hsum
          · intro _
            exact ⟨by omega, by omega⟩
        · intro hgt
          exact absurd hgt (by omega)
      · have hf : ¬ fireR op x := fun hc => hsum hc.2
        obtain ⟨o2, ho2, hreg2, hcov2⟩ := coalesceRead_cover_head rest x
        refine ⟨op, ?_, rfl, ⟨le_refl _, le_refl _⟩, ?_, ?_⟩
        · rw [coalesceRead, if_neg hf]
          exact List.mem_cons_self _ _
        · constructor
          · intro hcb
            obtain ⟨hcb1, hcb2⟩ := hcb
            omega
          · intro hsum2
            exact absurd hsum2 hsum
        · intro _
          refine ⟨o2, ?_, hreg2, hcov2, by omega⟩
          rw [coalesceRead, if_neg hf]
          exact List.mem_cons_of_mem _ ho2
    · intro i h1 h2 hadj
      cases i with
      | zero =>
        cases rest with
        | nil => simp at h2
        | cons b t =>
          have ha0 : (x :: b :: t).get ⟨0, h1⟩ = x := rfl
          have hb0 : (x :: b :: t).get ⟨0 + 1, h2⟩ = b := rfl
          rw [ha0, hb0] at hadj
          rw [ha0, hb0]
          by_cases hf : fireR op x
          · have hadjn : b.register =
                op.register + (op.quantity + x.quantity) := by
              have h3 := hf.1
              omega
            have hA := (ih ⟨op.register, op.quantity + x.quantity⟩ hqrest).1 b t rfl hadjn
            obtain ⟨o, ho, hreg, hcovn, hiff, hstop⟩ := hA
            have hregn : o.register = op.register := hreg
            have hiff2 : covers o b ↔
                op.quantity + x.quantity + b.quantity ≤ maxFunc3Quantity := hiff
            have hstop2 : maxFunc3Quantity < op.quantity + x.quantity + b.quantity →
                ∃ o2 ∈ coalesceRead ⟨op.register, op.quantity + x.quantity⟩ (b :: t),
                  o2.register = b.register ∧ covers o2 b ∧
                    o.register + o.quantity ≤ o2.register := hstop
            obtain ⟨hcn1, hcn2⟩ := hcovn
            have hcn2a : op.register + (op.quantity + x.quantity) ≤
                o.register + o.quantity := hcn2
            have hxr := hf.1
            have harith : x.register + x.quantity - o.register + b.quantity =
                op.quantity + x.quantity + b.quantity := by omega
            refine ⟨o, ?_, ⟨by omega, by omega⟩, ?_, ?_⟩
            · rw [coalesceRead, if_pos hf]
              exact ho
            · rw [harith]
              exact hiff2
            · intro hnb
              have hgt : maxFunc3Quantity < op.quantity + x.quantity + b.quantity := by
                by_contra hle2
                exact hnb (hiff2.mpr (by omega))
              obtain ⟨o2, ho2, hr2, hc2, hend2⟩ := hstop2 hgt
              refine ⟨o2, ?_, hr2, hc2, hend2⟩
              rw [coalesceRead, if_pos hf]
              exact ho2
          · have hA := (ih x hqrest).1 b t rfl hadj
            obtain ⟨o, ho, hreg, hcovx, hiff, hstop⟩ := hA
            have hregx : o.register = x.register := hreg
            have harith : x.register + x.quantity - o.register + b.quantity =
                x.quantity + b.quantity := by omega
            refine ⟨o, ?_, hcovx, ?_, ?_⟩
            · rw [coalesceRead, if_neg hf]
              exact List.mem_cons_of_mem _ ho
            · rw [harith]
              exact hiff
            · intro hnb
              have hgt : maxFunc3Quantity < x.quantity + b.quantity := by
                by_contra hle2
                exact hnb (hiff.mpr (by omega))
              obtain ⟨o2, ho2, hr2, hc2, hend2⟩ := hstop hgt
              refine ⟨o2, ?_, hr2, hc2, hend2⟩
              rw [coalesceRead, if_neg hf]
              exact List.mem_cons_of_mem _ ho2
      | succ j =>
        have h1r : j < rest.length := by
          simp only [List.length_cons] at h1
          omega
        have h2r : j + 1 < rest.length := by
          simp only [List.length_cons] at h2
          omega
        have hadj2 : (rest.get ⟨j + 1, h2r⟩).register =
            (rest.get ⟨j, h1r⟩).register + (rest.get ⟨j, h1r⟩).quantity := hadj
        by_cases hf : fireR op x
        · obtain ⟨o, ho, hca, hiff, hstop⟩ :=
            (ih ⟨op.register, op.quantity + x.quantity⟩ hqrest).2 j h1r h2r hadj2
          refine ⟨o, ?_, hca, hiff, ?_⟩
          · rw [coalesceRead, if_pos hf]
            exact ho
          · intro hnb
            obtain ⟨o2, ho2, hr2, hc2, hend2⟩ := hstop hnb
            refine ⟨o2, ?_, hr2, hc2, hend2⟩
            rw [coalesceRead, if_pos hf]
            exact ho2
        · obtain ⟨o, ho, hca, hiff, hstop⟩ := (ih x hqrest).2 j h1r h2r hadj2
          refine ⟨o, ?_, hca, hiff, ?_⟩
          · rw [coalesceRead, if_neg hf]
            exact List.mem_cons_of_mem _ ho
          · intro hnb
            obtain ⟨o2, ho2, hr2, hc2, hend2⟩ := hstop hnb
            refine ⟨o2, ?_, hr2, hc2, hend2⟩
            rw [coalesceRead, if_neg hf]
            exact List.mem_cons_of_mem _ ho2

lemma coalesceFromRead_pair (s : List readOp) (hq : ∀ x ∈ s, 1 ≤ x.quantity) :
    ∀ (i : Nat) (h1 : i < s.length) (h2 : i + 1 < s.length),
      (s.get ⟨i + 1, h2⟩).register = (s.get ⟨i, h1⟩).register + (s.get ⟨i, h1⟩).quantity →
      ∃ o ∈ coalesceFromRead s, covers o (s.get ⟨i, h1⟩) ∧
        (covers o (s.get ⟨i + 1, h2⟩) ↔
          (s.get ⟨i, h1⟩).register + (s.get ⟨i, h1⟩).quantity - o.register +
            (s.get ⟨i + 1, h2⟩).quantity ≤ maxFunc3Quantity) ∧
        (¬ covers o (s.get ⟨i + 1, h2⟩) →
          ∃ o2 ∈ coalesceFromRead s, o2.register = (s.get ⟨i + 1, h2⟩).register ∧
            covers o2 (s.get ⟨i + 1, h2⟩) ∧ o.register + o.quantity ≤ o2.register) := by
  intro i h1 h2 hadj
  cases s with
  | nil => simp at h1
  | cons a xs =>
    have hqxs : ∀ y ∈ xs, 1 ≤ y.quantity := fun y hy => hq y (List.mem_cons_of_mem a hy)
    cases i with
    | zero =>
      cases xs with
      | nil => simp at h2
      | cons b t =>
        have ha0 : (a :: b :: t).get ⟨0, h1⟩ = a := rfl
        have hb0 : (a :: b :: t).get ⟨0 + 1, h2⟩ = b := rfl
        rw [ha0, hb0] at hadj
        rw [ha0, hb0]
        obtain ⟨o, ho, hreg, hcova, hiff, hstop⟩ :=
          (coalesceRead_pair (b :: t) a hqxs).1 b t rfl hadj
        have hrega : o.register = a.register := hreg
        have harith : a.register + a.quantity - o.register + b.quantity =
            a.quantity + b.quantity := by omega
        refine ⟨o, ho, hcova, ?_, ?_⟩
        · rw [harith]
          exact hiff
        · intro hnb
          have hgt : maxFunc3Quantity < a.quantity + b.quantity := by
            by_contra hle2
            exact hnb (hiff.mpr (by omega))
          exact hstop hgt
    | succ j =>
      have h1r : j < xs.length := by
        simp only [List.length_cons] at h1
        omega
      have h2r : j + 1 < xs.length := by
        simp only [List.length_cons] at h2
        omega
      have hadj2 : (xs.get ⟨j + 1, h2r⟩).register =
          (xs.get ⟨j, h1r⟩).register + (xs.get ⟨j, h1r⟩).quantity := hadj
      obtain ⟨o, ho, hca, hiff, hstop⟩ :=
        (coalesceRead_pair xs a hqxs).2 j h1r h2r hadj2
      exact ⟨o, ho, hca, hiff, hstop⟩

/-- Interval order for write ops. -/
def opEndLeW (a b : writeOp) : Prop := a.register + a.quantity ≤ b.register

instance (a b : writeOp) : Decidable (opEndLeW a b) :=
  inferInstanceAs (Decidable (_ ≤ _))

instance : IsTrans writeOp opEndLeW :=
  ⟨fun _ b _ h1 h2 => le_trans h1 (le_trans (Nat.le_add_right b.register b.quantity) h2)⟩

instance : IsTotal writeOp (fun a b => a.register ≤ b.register) :=
  ⟨fun a b => Nat.le_total a.register b.register⟩

instance : IsTrans writeOp (fun a b => a.register ≤ b.register) :=
  ⟨fun _ _ _ h1 h2 => Nat.le_trans h1 h2⟩

/-- A well-formed write op: nonempty range fitting the address space,
respecting the write ceiling (what `writeOp.validate` guarantees). -/
def writeOpOK (x : writeOp) : Prop :=
  1 ≤ x.quantity ∧ x.quantity ≤ maxFunc16Quantity ∧ x.register + x.quantity ≤ u16mod

instance (x : writeOp) : Decidable (writeOpOK x) :=
  inferInstanceAs (Decidable (_ ∧ _))

/-- Disjoint register ranges for write ops. -/
def rangesDisjointW (a b : writeOp) : Prop :=
  a.register + a.quantity ≤ b.register ∨ b.register + b.quantity ≤ a.register

instance (a b : writeOp) : Decidable (rangesDisjointW a b) :=
  inferInstanceAs (Decidable (_ ∨ _))

/-- Range containment for write ops. -/
def coversW (o x : writeOp) : Prop :=
  o.register ≤ x.register ∧ x.register + x.quantity ≤ o.register + o.quantity

instance (o x : writeOp) : Decidable (coversW o x) :=
  inferInstanceAs (Decidable (_ ∧ _))

/-- The merge condition of `optimizeWrite` in plain `Nat` arithmetic. -/
def fireW (op x : writeOp) : Prop :=
  x.register = op.register + op.quantity ∧ op.quantity + x.quantity ≤ maxFunc16Quantity

instance (op x : writeOp) : Decidable (fireW op x) :=
  inferInstanceAs (Decidable (_ ∧ _))

/-- Greedy coalescing of a sorted write-op list, appending value bytes on
each merge as `optimizeWrite` does. -/
def coalesceWrite : writeOp → List writeOp → List writeOp
  | op, [] => [op]
  | op, x :: rest =>
    if fireW op x then
      coalesceWrite ⟨op.register, op.quantity + x.quantity, op.value ++ x.value⟩ rest
    else op :: coalesceWrite x rest

/-- `coalesceWrite` lifted to a whole list. -/
def coalesceFromWrite : List writeOp → List writeOp
  | [] => []
  | op :: rest => coalesceWrite op rest

lemma foldl_writeMergeStep_shift (xs : List writeOp) :
    ∀ (op : writeOp) (k : Nat),
      xs.foldl writeMergeStep (op, k) =
        ((xs.foldl writeMergeStep (op, 0)).1, k + (xs.foldl writeMergeStep (op, 0)).2) := by
  induction xs with
  | nil => intro op k; simp
  | cons x rest ih =>
    intro op k
    by_cases h : x.register = (op.register + op.quantity) % u16mod ∧
        (op.quantity + x.quantity) % u16mod ≤ maxFunc16Quantity
    · rw [List.foldl_cons, List.foldl_cons, writeMergeStep, if_pos h, writeMergeStep, if_pos h]
      rw [ih _ (k + 1), ih _ 1]
      refine Prod.ext rfl ?_
      simp only
      omega
    · rw [List.foldl_cons, List.foldl_cons, writeMergeStep, if_neg h, writeMergeStep, if_neg h]
      exact ih op k

lemma foldl_writeMergeStep_no_fire (xs : List writeOp) :
    ∀ (op : writeOp),
      (∀ x ∈ xs, ¬(x.register = (op.register + op.quantity) % u16mod ∧
        (op.quantity + x.quantity) % u16mod ≤ maxFunc16Quantity)) →
      ∀ k, xs.foldl writeMergeStep (op, k) = (op, k) := by
  induction xs with
  | nil => intro op h k; rfl
  | cons x rest ih =>
    intro op h k
    rw [List.foldl_cons, writeMergeStep, if_neg (h x (List.mem_cons_self x rest))]
    exact ih op (fun y hy => h y (List.mem_cons_of_mem x hy)) k

lemma writeMergeStep_cond_iff (op x : writeOp)
    (hq : op.quantity ≤ maxFunc16Quantity) (hxq : x.quantity ≤ maxFunc16Quantity)
    (hle : op.register + op.quantity ≤ x.register)
    (hfit : x.register + x.quantity ≤ u16mod) (hx1 : 1 ≤ x.quantity) :
    (x.register = (op.register + op.quantity) % u16mod ∧
      (op.quantity + x.quantity) % u16mod ≤ maxFunc16Quantity) ↔ fireW op x := by
  have hu : u16mod = 65536 := rfl
  have hc : maxFunc16Quantity = 123 := rfl
  have hend : (op.register + op.quantity) % u16mod = op.register + op.quantity :=
    Nat.mod_eq_of_lt (by omega)
  have hsum : (op.quantity + x.quantity) % u16mod = op.quantity + x.quantity :=
    Nat.mod_eq_of_lt (by omega)
  rw [fireW, hend, hsum]

lemma chain_imp_allW (xs : List writeOp) :
    ∀ (op : writeOp), List.Chain opEndLeW op xs →
      ∀ x ∈ xs, op.register + op.quantity ≤ x.register := by
  induction xs with
  | nil => intro op _ x hx; cases hx
  | cons y rest ih =>
    intro op hch x hx
    rw [List.chain_cons] at hch
    rcases List.mem_cons.mp hx with rfl | hx2
    · exact hch.1
    · have h2 := ih y hch.2 x hx2
      have h3 : y.register ≤ y.register + y.quantity := Nat.le_add_right _ _
      exact le_trans (le_trans hch.1 h3) h2

lemma chain_of_end_eqW (l : List writeOp) (a b : writeOp)
    (h : a.register + a.quantity = b.register + b.quantity)
    (hch : List.Chain opEndLeW a l) : List.Chain opEndLeW b l := by
  cases l with
  | nil => exact List.Chain.nil
  | cons y t =>
    rw [List.chain_cons] at hch ⊢
    refine ⟨?_, hch.2⟩
    have h1 := hch.1
    unfold opEndLeW at h1 ⊢
    omega

lemma innerScanWrite (xs : List writeOp) :
    ∀ (op : writeOp), List.Chain opEndLeW op xs → (∀ x ∈ xs, writeOpOK x) →
      op.quantity ≤ maxFunc16Quantity → op.register + op.quantity ≤ u16mod →
      ∃ n OP, n ≤ xs.length ∧
        xs.foldl writeMergeStep (op, 0) = (OP, n) ∧
        coalesceWrite op xs = OP :: coalesceFromWrite (xs.drop n) := by
  induction xs with
  | nil =>
    intro op _ _ _ _
    exact ⟨0, op, Nat.le_refl _, rfl, rfl⟩
  | cons x rest ih =>
    intro op hch hOK hq hfit
    rw [List.chain_cons] at hch
    have hxOK := hOK x (List.mem_cons_self x rest)
    have hiff := writeMergeStep_cond_iff op x hq hxOK.2.1 hch.1 hxOK.2.2 hxOK.1
    by_cases hf : fireW op x
    · have hcond := hiff.mpr hf
      have hmod : (op.quantity + x.quantity) % u16mod = op.quantity + x.quantity :=
        Nat.mod_eq_of_lt (by
          have hu : u16mod = 65536 := rfl
          have hc : maxFunc16Quantity = 123 := rfl
          have h1 := hxOK.2.1
          omega)
      have hstep : writeMergeStep (op, 0) x =
          ((⟨op.register, op.quantity + x.quantity, op.value ++ x.value⟩ : writeOp), 1) := by
        rw [writeMergeStep, if_pos hcond, hmod]
      have hend : x.register + x.quantity =
          op.register + (op.quantity + x.quantity) := by
        have h1 := hf.1
        omega
      have hch2 : List.Chain opEndLeW
          (⟨op.register, op.quantity + x.quantity, op.value ++ x.value⟩ : writeOp) rest :=
        chain_of_end_eqW rest x ⟨op.register, op.quantity + x.quantity, op.value ++ x.value⟩
          hend hch.2
      obtain ⟨n, OP, hn, hfold, hco⟩ :=
        ih ⟨op.register, op.quantity + x.quantity, op.value ++ x.value⟩ hch2
          (fun y hy => hOK y (List.mem_cons_of_mem x hy)) hf.2
          (by
            show op.register + (op.quantity + x.quantity) ≤ u16mod
            have h1 := hxOK.2.2
            have h2 := hf.1
            omega)
      refine ⟨n + 1, OP, by simpa using Nat.succ_le_succ hn, ?_, ?_⟩
      · rw [List.foldl_cons, hstep, foldl_writeMergeStep_shift, hfold]
        exact Prod.ext rfl (Nat.add_comm 1 n)
      · rw [coalesceWrite, if_pos hf, hco, List.drop_succ_cons]
    · have hcond : ¬(x.register = (op.register + op.quantity) % u16mod ∧
          (op.quantity + x.quantity) % u16mod ≤ maxFunc16Quantity) := fun hc => hf (hiff.mp hc)
      have hnofire : ∀ y ∈ rest, ¬(y.register = (op.register + op.quantity) % u16mod ∧
          (op.quantity + y.quantity) % u16mod ≤ maxFunc16Quantity) := by
        intro y hy hc
        have h1 : x.register + x.quantity ≤ y.register := chain_imp_allW rest x hch.2 y hy
        have h2 : op.register + op.quantity ≤ x.register := hch.1
        have h3 : (op.register + op.quantity) % u16mod ≤ op.register + op.quantity :=
          Nat.mod_le _ _
        have h4 := hxOK.1
        have h5 := hc.1
        omega
      refine ⟨0, op, Nat.zero_le _, ?_, ?_⟩
      · rw [List.foldl_cons, writeMergeStep, if_neg hcond]
        exact foldl_writeMergeStep_no_fire rest op hnofire 0
      · rw [coalesceWrite, if_neg hf]
        rfl

lemma optimizeWriteAux_eq_coalesce (l : List writeOp)
    (hchain : List.Chain' opEndLeW l) (hOK : ∀ x ∈ l, writeOpOK x) :
    ∀ (fuel i : Nat), l.length - i ≤ fuel →
      optimizeWriteAux l fuel i = coalesceFromWrite (l.drop i) := by
  intro fuel
  induction fuel with
  | zero =>
    intro i hle
    rw [List.drop_eq_nil_of_le (by omega)]
    rfl
  | succ fuel ih =>
    intro i hle
    by_cases h : i < l.length
    · have hdrop : l.drop i = l[i] :: l.drop (i + 1) := List.drop_eq_getElem_cons h
      have hch2 : List.Chain' opEndLeW (l.drop i) := hchain.sublist (List.drop_sublist i l)
      have hch3 : List.Chain opEndLeW l[i] (l.drop (i + 1)) := by
        rw [hdrop] at hch2
        exact hch2
      have hOPok : writeOpOK l[i] := hOK _ (List.getElem_mem h)
      obtain ⟨n, OP, hn, hfold, hco⟩ :=
        innerScanWrite (l.drop (i + 1)) l[i] hch3
          (fun y hy => hOK y (List.mem_of_mem_drop hy)) hOPok.2.1 hOPok.2.2
      simp only [optimizeWriteAux, dif_pos h]
      rw [hfold]
      show OP :: optimizeWriteAux l fuel (i + n + 1) = _
      rw [ih (i + n + 1) (by omega)]
      rw [hdrop]
      show OP :: coalesceFromWrite (l.drop (i + n + 1)) = coalesceWrite l[i] (l.drop (i + 1))
      rw [hco, List.drop_drop]
      have harith : i + 1 + n = i + n + 1 := by omega
      rw [harith]
    · simp only [optimizeWriteAux, dif_neg h]
      rw [List.drop_eq_nil_of_le (by omega)]
      rfl

lemma sortWriteOps_mem (l : List writeOp) (x : writeOp) :
    x ∈ sortWriteOps l ↔ x ∈ l :=
  (List.perm_insertionSort _ l).mem_iff

lemma sortWriteOps_chain (l : List writeOp)
    (h1 : ∀ x ∈ l, 1 ≤ x.quantity) (hdis : List.Pairwise rangesDisjointW l) :
    List.Chain' opEndLeW (sortWriteOps l) := by
  have hperm : (sortWriteOps l).Perm l := List.perm_insertionSort _ l
  have hsorted : List.Sorted (fun a b => a.register ≤ b.register) (sortWriteOps l) :=
    List.sorted_insertionSort _ l
  have hdis2 : List.Pairwise rangesDisjointW (sortWriteOps l) :=
    (hperm.pairwise_iff (fun hxy => hxy.symm)).mpr hdis
  have hboth := List.Pairwise.and hsorted hdis2
  have himp : List.Pairwise opEndLeW (sortWriteOps l) := by
    refine hboth.imp_of_mem ?_
    intro a b _ hb hab
    have hb1 : 1 ≤ b.quantity := h1 b (hperm.mem_iff.mp hb)
    obtain ⟨h2, hc⟩ := hab
    unfold rangesDisjointW at hc
    unfold opEndLeW
    omega
  exact himp.chain'

lemma optimizeWrite_eq_coalesce (l : List writeOp)
    (hOK : ∀ x ∈ l, writeOpOK x) (hdis : List.Pairwise rangesDisjointW l) :
    optimizeWrite l = coalesceFromWrite (sortWriteOps l) := by
  have hOK2 : ∀ x ∈ sortWriteOps l, writeOpOK x :=
    fun x hx => hOK x ((sortWriteOps_mem l x).mp hx)
  have hch := sortWriteOps_chain l (fun x hx => (hOK x hx).1) hdis
  exact optimizeWriteAux_eq_coalesce (sortWriteOps l) hch hOK2 (sortWriteOps l).length 0
    (by omega)

lemma coalesceWrite_cover_head (xs : List writeOp) :
    ∀ op : writeOp, ∃ o ∈ coalesceWrite op xs, o.register = op.register ∧ coversW o op ∧
      ∃ tail, o.value = op.value ++ tail := by
  induction xs with
  | nil =>
    intro op
    refine ⟨op, ?_, rfl, ⟨le_refl _, le_refl _⟩, [], (List.append_nil _).symm⟩
    rw [coalesceWrite]
    exact List.mem_cons_self _ _
  | cons x rest ih =>
    intro op
    by_cases hf : fireW op x
    · obtain ⟨o, ho, hreg, hcov, tail, hval⟩ :=
        ih ⟨op.register, op.quantity + x.quantity, op.value ++ x.value⟩
      obtain ⟨hc1, hc2⟩ := hcov
      have hc2a : op.register + (op.quantity + x.quantity) ≤ o.register + o.quantity := hc2
      have hval2 : o.value = op.value ++ (x.value ++ tail) := by
        rw [hval]
        exact (List.append_assoc _ _ _)
      refine ⟨o, ?_, hreg, ⟨hc1, by omega⟩, x.value ++ tail, hval2⟩
      rw [coalesceWrite, if_pos hf]
      exact ho
    · refine ⟨op, ?_, rfl, ⟨le_refl _, le_refl _⟩, [], (List.append_nil _).symm⟩
      rw [coalesceWrite, if_neg hf]
      exact List.mem_cons_self _ _

lemma coalesceWrite_pair (xs : List writeOp) :
    ∀ op : writeOp, (∀ x ∈ xs, 1 ≤ x.quantity) →
      ((∀ (b : writeOp) (rest2 : List writeOp), xs = b :: rest2 →
        b.register = op.register + op.quantity →
        ∃ o ∈ coalesceWrite op xs, o.register = op.register ∧ coversW o op ∧
          (coversW o b ↔ op.quantity + b.quantity ≤ maxFunc16Quantity) ∧
          (coversW o b → ∃ post, o.value = op.value ++ b.value ++ post) ∧
          (maxFunc16Quantity < op.quantity + b.quantity →
            ∃ o2 ∈ coalesceWrite op xs, o2.register = b.register ∧ coversW o2 b ∧
              o.register + o.quantity ≤ o2.register)) ∧
      (∀ (i : Nat) (h1 : i < xs.length) (h2 : i + 1 < xs.length),
        (xs.get ⟨i + 1, h2⟩).register =
          (xs.get ⟨i, h1⟩).register + (xs.get ⟨i, h1⟩).quantity →
        ∃ o ∈ coalesceWrite op xs, coversW o (xs.get ⟨i, h1⟩) ∧
          (coversW o (xs.get ⟨i + 1, h2⟩) ↔
            (xs.get ⟨i, h1⟩).register + (xs.get ⟨i, h1⟩).quantity - o.register +
              (xs.get ⟨i + 1, h2⟩).quantity ≤ maxFunc16Quantity) ∧
          (coversW o (xs.get ⟨i + 1, h2⟩) →
            ∃ pre post, o.value =
              pre ++ (xs.get ⟨i, h1⟩).value ++ (xs.get ⟨i + 1, h2⟩).value ++ post) ∧
          (¬ coversW o (xs.get ⟨i + 1, h2⟩) →
            ∃ o2 ∈ coalesceWrite op xs, o2.register = (xs.get ⟨i + 1, h2⟩).register ∧
              coversW o2 (xs.get ⟨i + 1, h2⟩) ∧ o.register + o.quantity ≤ o2.register))) := by
  induction xs with
  | nil =>
    intro op _
    constructor
    · intro b rest2 heq
      exact List.noConfusion heq
    · intro i h1 h2
      simp at h2
  | cons x rest ih =>
    intro op hq
    have hqx : 1 ≤ x.quantity := hq x (List.mem_cons_self x rest)
    have hqrest : ∀ y ∈ rest, 1 ≤ y.quantity := fun y hy => hq y (List.mem_cons_of_mem x hy)
    constructor
    · intro b rest2 heq hadj
      injection heq with hb hrest2
      subst hb
      subst hrest2
      by_cases hsum : op.quantity + x.quantity ≤ maxFunc16Quantity
      · have hf : fireW op x := ⟨hadj, hsum⟩
        obtain ⟨o, ho, hreg, hcov, tail, hval⟩ :=
          coalesceWrite_cover_head rest ⟨op.register, op.quantity + x.quantity, op.value ++ x.value⟩
        have hreg2 : o.register = op.register := hreg
        obtain ⟨hc1, hc2⟩ := hcov
        have hc2a : op.register + (op.quantity + x.quantity) ≤ o.register + o.quantity := hc2
        have hval2 : o.value = op.value ++ x.value ++ tail := hval
        refine ⟨o, ?_, hreg2, ⟨by omega, by omega⟩, ?_, ?_, ?_⟩
        · rw [coalesceWrite, if_pos hf]
          exact ho
        · constructor
          · intro _
            exact hsum
          · intro _
            exact ⟨by omega, by omega⟩
        · intro _
          exact ⟨tail, hval2⟩
        · intro hgt
          exact absurd hgt (by omega)
      · have hf : ¬ fireW op x := fun hc => hsum hc.2
        obtain ⟨o2, ho2, hreg2, hcov2, _⟩ := coalesceWrite_cover_head rest x
        refine ⟨op, ?_, rfl, ⟨le_refl _, le_refl _⟩, ?_, ?_, ?_⟩
        · rw [coalesceWrite, if_neg hf]
          exact List.mem_cons_self _ _
        · constructor
          · intro hcb
            obtain ⟨hcb1, hcb2⟩ := hcb
            omega
          · intro hsum2
            exact absurd hsum2 hsum
        · intro hcb
          obtain ⟨hcb1, hcb2⟩ := hcb
          exact absurd hcb2 (by omega)
        · intro _
          refine ⟨o2, ?_, hreg2, hcov2, by omega⟩
          rw [coalesceWrite, if_neg hf]
          exact List.mem_cons_of_mem _ ho2
    · intro i h1 h2 hadj
      cases i with
      | zero =>
        cases rest with
        | nil => simp at h2
        | cons b t =>
          have ha0 : (x :: b :: t).get ⟨0, h1⟩ = x := rfl
          have hb0 : (x :: b :: t).get ⟨0 + 1, h2⟩ = b := rfl
          rw [ha0, hb0] at hadj
          rw [ha0, hb0]
          by_cases hf : fireW op x
          · have hadjn : b.register =
                op.register + (op.quantity + x.quantity) := by
              have h3 := hf.1
              omega
            have hA := (ih ⟨op.register, op.quantity + x.quantity, op.value ++ x.value⟩
              hqrest).1 b t rfl hadjn
            obtain ⟨o, ho, hreg, hcovn, hiff, hvcl, hstop⟩ := hA
            have hregn : o.register = op.register := hreg
            have hiff2 : coversW o b ↔
                op.quantity + x.quantity + b.quantity ≤ maxFunc16Quantity := hiff
            have hvcl2 : coversW o b →
                ∃ post, o.value = (op.value ++ x.value) ++ b.value ++ post := hvcl
            have hstop2 : maxFunc16Quantity < op.quantity + x.quantity + b.quantity →
                ∃ o2 ∈ coalesceWrite ⟨op.register, op.quantity + x.quantity,
                    op.value ++ x.value⟩ (b :: t),
                  o2.register = b.register ∧ coversW o2 b ∧
                    o.register + o.quantity ≤ o2.register := hstop
            obtain ⟨hcn1, hcn2⟩ := hcovn
            have hcn2a : op.register + (op.quantity + x.quantity) ≤
                o.register + o.quantity := hcn2
            have hxr := hf.1
            have harith : x.register + x.quantity - o.register + b.quantity =
                op.quantity + x.quantity + b.quantity := by omega
            refine ⟨o, ?_, ⟨by omega, by omega⟩, ?_, ?_, ?_⟩
            · rw [coalesceWrite, if_pos hf]
              exact ho
            · rw [harith]
              exact hiff2
            · intro hcb
              obtain ⟨post, hpost⟩ := hvcl2 hcb
              refine ⟨op.value, post, ?_⟩
              rw [hpost]
            · intro hnb
              have hgt : maxFunc16Quantity < op.quantity + x.quantity + b.quantity := by
                by_contra hle2
                exact hnb (hiff2.mpr (by omega))
              obtain ⟨o2, ho2, hr2, hc2, hend2⟩ := hstop2 hgt
              refine ⟨o2, ?_, hr2, hc2, hend2⟩
              rw [coalesceWrite, if_pos hf]
              exact ho2
          · have hA := (ih x hqrest).1 b t rfl hadj
            obtain ⟨o, ho, hreg, hcovx, hiff, hvcl, hstop⟩ := hA
            have hregx : o.register = x.register := hreg
            have harith : x.register + x.quantity - o.register + b.quantity =
                x.quantity + b.quantity := by omega
            refine ⟨o, ?_, hcovx, ?_, ?_, ?_⟩
            · rw [coalesceWrite, if_neg hf]
              exact List.mem_cons_of_mem _ ho
            · rw [harith]
              exact hiff
            · intro hcb
              obtain ⟨post, hpost⟩ := hvcl hcb
              exact ⟨[], post, by rw [hpost]; simp⟩
            · intro hnb
              have hgt : maxFunc16Quantity < x.quantity + b.quantity := by
                by_contra hle2
                exact hnb (hiff.mpr (by omega))
              obtain ⟨o2, ho2, hr2, hc2, hend2⟩ := hstop hgt
              refine ⟨o2, ?_, hr2, hc2, hend2⟩
              rw [coalesceWrite, if_neg hf]
              exact List.mem_cons_of_mem _ ho2
      | succ j =>
        have h1r : j < rest.length := by
          simp only [List.length_cons] at h1
          omega
        have h2r : j + 1 < rest.length := by
          simp only [List.length_cons] at h2
          omega
        have hadj2 : (rest.get ⟨j + 1, h2r⟩).register =
            (rest.get ⟨j, h1r⟩).register + (rest.get ⟨j, h1r⟩).quantity := hadj
        by_cases hf : fireW op x
        · obtain ⟨o, ho, hca, hiff, hvcl, hstop⟩ :=
            (ih ⟨op.register, op.quantity + x.quantity, op.value ++ x.value⟩ hqrest).2
              j h1r h2r hadj2
          refine ⟨o, ?_, hca, hiff, hvcl, ?_⟩
          · rw [coalesceWrite, if_pos hf]
            exact ho
          · intro hnb
            obtain ⟨o2, ho2, hr2, hc2, hend2⟩ := hstop hnb
            refine ⟨o2, ?_, hr2, hc2, hend2⟩
            rw [coalesceWrite, if_pos hf]
            exact ho2
        · obtain ⟨o, ho, hca, hiff, hvcl, hstop⟩ := (ih x hqrest).2 j h1r h2r hadj2
          refine ⟨o, ?_, hca, hiff, hvcl, ?_⟩
          · rw [coalesceWrite, if_neg hf]
            exact List.mem_cons_of_mem _ ho
          · intro hnb
            obtain ⟨o2, ho2, hr2, hc2, hend2⟩ := hstop hnb
            refine ⟨o2, ?_, hr2, hc2, hend2⟩
            rw [coalesceWrite, if_neg hf]
            exact List.mem_cons_of_mem _ ho2

lemma coalesceFromWrite_pair (s : List writeOp) (hq : ∀ x ∈ s, 1 ≤ x.quantity) :
    ∀ (i : Nat) (h1 : i < s.length) (h2 : i + 1 < s.length),
      (s.get ⟨i + 1, h2⟩).register = (s.get ⟨i, h1⟩).register + (s.get ⟨i, h1⟩).quantity →
      ∃ o ∈ coalesceFromWrite s, coversW o (s.get ⟨i, h1⟩) ∧
        (coversW o (s.get ⟨i + 1, h2⟩) ↔
          (s.get ⟨i, h1⟩).register + (s.get ⟨i, h1⟩).quantity - o.register +
            (s.get ⟨i + 1, h2⟩).quantity ≤ maxFunc16Quantity) ∧
        (coversW o (s.get ⟨i + 1, h2⟩) →
          ∃ pre post, o.value =
            pre ++ (s.get ⟨i, h1⟩).value ++ (s.get ⟨i + 1, h2⟩).value ++ post) ∧
        (¬ coversW o (s.get ⟨i + 1, h2⟩) →
          ∃ o2 ∈ coalesceFromWrite s, o2.register = (s.get ⟨i + 1, h2⟩).register ∧
            coversW o2 (s.get ⟨i + 1, h2⟩) ∧ o.register + o.quantity ≤ o2.register) := by
  intro i h1 h2 hadj
  cases s with
  | nil => simp at h1
  | cons a xs =>
    have hqxs : ∀ y ∈ xs, 1 ≤ y.quantity := fun y hy => hq y (List.mem_cons_of_mem a hy)
    cases i with
    | zero =>
      cases xs with
      | nil => simp at h2
      | cons b t =>
        have ha0 : (a :: b :: t).get ⟨0, h1⟩ = a := rfl
        have hb0 : (a :: b :: t).get ⟨0 + 1, h2⟩ = b := rfl
        rw [ha0, hb0] at hadj
        rw [ha0, hb0]
        obtain ⟨o, ho, hreg, hcova, hiff, hvcl, hstop⟩ :=
          (coalesceWrite_pair (b :: t) a hqxs).1 b t rfl hadj
        have hrega : o.register = a.register := hreg
        have harith : a.register + a.quantity - o.register + b.quantity =
            a.quantity + b.quantity := by omega
        refine ⟨o, ho, hcova, ?_, ?_, ?_⟩
        · rw [harith]
          exact hiff
        · intro hcb
          obtain ⟨post, hpost⟩ := hvcl hcb
          exact ⟨[], post, by rw [hpost]; simp⟩
        · intro hnb
          have hgt : maxFunc16Quantity < a.quantity + b.quantity := by
            by_contra hle2
            exact hnb (hiff.mpr (by omega))
          exact hstop hgt
    | succ j =>
      have h1r : j < xs.length := by
        simp only [List.length_cons] at h1
        omega
      have h2r : j + 1 < xs.length := by
        simp only [List.length_cons] at h2
        omega
      have hadj2 : (xs.get ⟨j + 1, h2r⟩).register =
          (xs.get ⟨j, h1r⟩).register + (xs.get ⟨j, h1r⟩).quantity := hadj
      obtain ⟨o, ho, hca, hiff, hvcl, hstop⟩ :=
        (coalesceWrite_pair xs a hqxs).2 j h1r h2r hadj2
      exact ⟨o, ho, hca, hiff, hvcl, hstop⟩

/-- Claim C1 counterexample: for the pairwise non-overlapping, validated
read ops `[(0,1000),(1000,1000),(2000,100)]` (already register-sorted),
the consecutive pair `(1000,1000),(2000,100)` is exactly adjacent and its
summed quantity `1100 ≤ 2047`, yet `optimizeRead` leaves the two ops in
different output ops (`[(0,2000),(2000,100)]`): the accumulator already
holds 2000 registers when it reaches `(2000,100)`, so the ceiling check
`2000+100 > 2047` blocks the merge.  This refutes "merges them into a
single op exactly when their summed quantity is at most 2047". -/
theorem claim_C1_counterexample :
    (∀ x ∈ ([⟨0, 1000⟩, ⟨1000, 1000⟩, ⟨2000, 100⟩] : List readOp), readOpOK x) ∧
    List.Pairwise rangesDisjoint [⟨0, 1000⟩, ⟨1000, 1000⟩, ⟨2000, 100⟩] ∧
    sortReadOps [⟨0, 1000⟩, ⟨1000, 1000⟩, ⟨2000, 100⟩] =
      [⟨0, 1000⟩, ⟨1000, 1000⟩, ⟨2000, 100⟩] ∧
    (2000 : Nat) = 1000 + 1000 ∧ (1000 : Nat) + 100 ≤ maxFunc3Quantity ∧
    optimizeRead [⟨0, 1000⟩, ⟨1000, 1000⟩, ⟨2000, 100⟩] = [⟨0, 2000⟩, ⟨2000, 100⟩] ∧
    ¬ ∃ o ∈ optimizeRead [⟨0, 1000⟩, ⟨1000, 1000⟩, ⟨2000, 100⟩],
        covers o ⟨1000, 1000⟩ ∧ covers o ⟨2000, 100⟩ := by
  decide

/-- Claim C1 (amended): for pairwise non-overlapping, validated ops, and
any two ops `a, b` consecutive in ascending register order with
`b.register = a.register + a.quantity`, the optimizer puts `a` into an
output op `o` starting at the head of `a`'s merged run, and `b` lands in
the same op exactly when the run's accumulated quantity through `b` —
`(a.register + a.quantity - o.register) + b.quantity` — stays within the
ceiling (2047 for reads, 123 for writes); in particular a pair whose own
summed quantity exceeds the ceiling is never merged.  The ceiling is
checked before the merge: a blocked merge starts a new output op exactly
at `b.register`.  `optimizeWrite` behaves identically with ceiling 123
and keeps the merged ops' value bytes concatenated in register order
(`a`'s bytes immediately followed by `b`'s inside the merged value). -/
theorem claim_C1_adjacent_pair_merge :
    (∀ (l : List readOp), (∀ x ∈ l, readOpOK x) → List.Pairwise rangesDisjoint l →
      ∀ (i : Nat) (h1 : i < (sortReadOps l).length) (h2 : i + 1 < (sortReadOps l).length),
        ((sortReadOps l).get ⟨i + 1, h2⟩).register =
          ((sortReadOps l).get ⟨i, h1⟩).register + ((sortReadOps l).get ⟨i, h1⟩).quantity →
        ∃ o ∈ optimizeRead l, covers o ((sortReadOps l).get ⟨i, h1⟩) ∧
          (covers o ((sortReadOps l).get ⟨i + 1, h2⟩) ↔
            ((sortReadOps l).get ⟨i, h1⟩).register + ((sortReadOps l).get ⟨i, h1⟩).quantity -
              o.register + ((sortReadOps l).get ⟨i + 1, h2⟩).quantity ≤ maxFunc3Quantity) ∧
          (¬ covers o ((sortReadOps l).get ⟨i + 1, h2⟩) →
            ∃ o2 ∈ optimizeRead l,
              o2.register = ((sortReadOps l).get ⟨i + 1, h2⟩).register ∧
              covers o2 ((sortReadOps l).get ⟨i + 1, h2⟩) ∧
              o.register + o.quantity ≤ o2.register)) ∧
    (∀ (l : List writeOp), (∀ x ∈ l, writeOpOK x) → List.Pairwise rangesDisjointW l →
      ∀ (i : Nat) (h1 : i < (sortWriteOps l).length) (h2 : i + 1 < (sortWriteOps l).length),
        ((sortWriteOps l).get ⟨i + 1, h2⟩).register =
          ((sortWriteOps l).get ⟨i, h1⟩).register + ((sortWriteOps l).get ⟨i, h1⟩).quantity →
        ∃ o ∈ optimizeWrite l, coversW o ((sortWriteOps l).get ⟨i, h1⟩) ∧
          (coversW o ((sortWriteOps l).get ⟨i + 1, h2⟩) ↔
            ((sortWriteOps l).get ⟨i, h1⟩).register + ((sortWriteOps l).get ⟨i, h1⟩).quantity -
              o.register + ((sortWriteOps l).get ⟨i + 1, h2⟩).quantity ≤ maxFunc16Quantity) ∧
          (coversW o ((sortWriteOps l).get ⟨i + 1, h2⟩) →
            ∃ pre post, o.value =
              pre ++ ((sortWriteOps l).get ⟨i, h1⟩).value ++
                ((sortWriteOps l).get ⟨i + 1, h2⟩).value ++ post) ∧
          (¬ coversW o ((sortWriteOps l).get ⟨i + 1, h2⟩) →
            ∃ o2 ∈ optimizeWrite l,
              o2.register = ((sortWriteOps l).get ⟨i + 1, h2⟩).register ∧
              coversW o2 ((sortWriteOps l).get ⟨i + 1, h2⟩) ∧
              o.register + o.quantity ≤ o2.register)) := by
  constructor
  · intro l hOK hdis i h1 h2 hadj
    rw [optimizeRead_eq_coalesce l hOK hdis]
    exact coalesceFromRead_pair (sortReadOps l)
      (fun x hx => (hOK x ((sortReadOps_mem l x).mp hx)).1) i h1 h2 hadj
  · intro l hOK hdis i h1 h2 hadj
    rw [optimizeWrite_eq_coalesce l hOK hdis]
    exact coalesceFromWrite_pair (sortWriteOps l)
      (fun x hx => (hOK x ((sortWriteOps_mem l x).mp hx)).1) i h1 h2 hadj

/-- Claim C1 amended-claim witness: the read theorem instantiated at
`[(2,2),(4,2),(7,1)]` (pair `(2,2),(4,2)` merges into one covering op)
and the write theorem at `[(2,1,[3,2]),(3,1,[3,4])]` (merged op carries
`[3,2]` immediately followed by `[3,4]`). -/
theorem claim_C1_adjacent_pair_merge_witness :
    (∃ o ∈ optimizeRead [⟨2, 2⟩, ⟨4, 2⟩, ⟨7, 1⟩], covers o ⟨2, 2⟩ ∧ covers o ⟨4, 2⟩) ∧
    (∃ o ∈ optimizeWrite [⟨2, 1, [3, 2]⟩, ⟨3, 1, [3, 4]⟩],
      coversW o ⟨2, 1, [3, 2]⟩ ∧ coversW o ⟨3, 1, [3, 4]⟩ ∧
      ∃ pre post, o.value = pre ++ [3, 2] ++ [3, 4] ++ post) := by
  constructor
  · have h := claim_C1_adjacent_pair_merge.1 [⟨2, 2⟩, ⟨4, 2⟩, ⟨7, 1⟩]
      (by decide) (by decide) 0 (by decide) (by decide) (by decide)
    obtain ⟨o, ho, hc1, hiff, _⟩ := h
    have hc1a : covers o ⟨2, 2⟩ := hc1
    refine ⟨o, ho, hc1a, hiff.mpr ?_⟩
    have := hc1a.1
    show (2 : Nat) + 2 - o.register + 2 ≤ maxFunc3Quantity
    have hc : maxFunc3Quantity = 2047 := rfl
    omega
  · have h := claim_C1_adjacent_pair_merge.2 [⟨2, 1, [3, 2]⟩, ⟨3, 1, [3, 4]⟩]
      (by decide) (by decide) 0 (by decide) (by decide) (by decide)
    obtain ⟨o, ho, hc1, hiff, hval, _⟩ := h
    have hc1a : coversW o ⟨2, 1, [3, 2]⟩ := hc1
    have hcb : coversW o ⟨3, 1, [3, 4]⟩ := by
      refine hiff.mpr ?_
      have := hc1a.1
      show (2 : Nat) + 1 - o.register + 1 ≤ maxFunc16Quantity
      have hc : maxFunc16Quantity = 123 := rfl
      omega
    exact ⟨o, ho, hc1a, hcb, hval hcb⟩

/-- Boundary relation between consecutive optimizer output ops: the next
op starts at or after this one's end, and the merge between them is
blocked (gap, or ceiling overflow). -/
def boundaryBlocked (o o2 : readOp) : Prop :=
  o.register + o.quantity ≤ o2.register ∧
    (o.register + o.quantity < o2.register ∨ maxFunc3Quantity < o.quantity + o2.quantity)

/-- Write-side boundary relation. -/
def boundaryBlockedW (o o2 : writeOp) : Prop :=
  o.register + o.quantity ≤ o2.register ∧
    (o.register + o.quantity < o2.register ∨ maxFunc16Quantity < o.quantity + o2.quantity)

lemma coalesceRead_out (xs : List readOp) :
    ∀ op : readOp, List.Chain opEndLe op xs → (∀ x ∈ xs, readOpOK x) → readOpOK op →
      (∀ o ∈ coalesceRead op xs, readOpOK o) ∧
      List.Chain' boundaryBlocked (coalesceRead op xs) ∧
      ∃ h t, coalesceRead op xs = h :: t ∧ h.register = op.register ∧
        op.quantity ≤ h.quantity := by
  induction xs with
  | nil =>
    intro op _ _ hopOK
    refine ⟨?_, ?_, op, [], rfl, rfl, le_refl _⟩
    · intro o ho
      rw [coalesceRead] at ho
      rcases List.mem_singleton.mp ho with rfl
      exact hopOK
    · rw [coalesceRead]
      exact List.chain'_singleton _
  | cons x rest ih =>
    intro op hch hOK hopOK
    rw [List.chain_cons] at hch
    have hxOK := hOK x (List.mem_cons_self x rest)
    by_cases hf : fireR op x
    · have hnewOK : readOpOK (⟨op.register, op.quantity + x.quantity⟩ : readOp) := by
        refine ⟨?_, ?_, ?_⟩
        · show 1 ≤ op.quantity + x.quantity
          have := hopOK.1
          omega
        · exact hf.2
        · show op.register + (op.quantity + x.quantity) ≤ u16mod
          have h1 := hxOK.2.2
          have h2 := hf.1
          omega
      have hch2 : List.Chain opEndLe (⟨op.register, op.quantity + x.quantity⟩ : readOp) rest :=
        chain_of_end_eq rest x ⟨op.register, op.quantity + x.quantity⟩
          (by
            show x.register + x.quantity = op.register + (op.quantity + x.quantity)
            have := hf.1
            omega) hch.2
      obtain ⟨hprops, hchain, hd, td, heq, hreg, hq⟩ :=
        ih ⟨op.register, op.quantity + x.quantity⟩ hch2
          (fun y hy => hOK y (List.mem_cons_of_mem x hy)) hnewOK
      refine ⟨?_, ?_, hd, td, ?_, hreg, ?_⟩
      · intro o ho
        rw [coalesceRead, if_pos hf] at ho
        exact hprops o ho
      · rw [coalesceRead, if_pos hf]
        exact hchain
      · rw [coalesceRead, if_pos hf]
        exact heq
      · have hq2 : op.quantity + x.quantity ≤ hd.quantity := hq
        omega
    · obtain ⟨hprops, hchain, hd, td, heq, hreg, hq⟩ :=
        ih x hch.2 (fun y hy => hOK y (List.mem_cons_of_mem x hy)) hxOK
      refine ⟨?_, ?_, op, coalesceRead x rest, ?_, rfl, le_refl _⟩
      · intro o ho
        rw [coalesceRead, if_neg hf] at ho
        rcases List.mem_cons.mp ho with rfl | ho2
        · exact hopOK
        · exact hprops o ho2
      · rw [coalesceRead, if_neg hf, heq]
        rw [List.chain'_cons]
        constructor
        · constructor
          · have h1 : op.register + op.quantity ≤ x.register := hch.1
            omega
          · by_cases hadj : x.register = op.register + op.quantity
            · right
              have hceil : maxFunc3Quantity < op.quantity + x.quantity := by
                by_contra hle2
                exact hf ⟨hadj, by omega⟩
              have hq2 : x.quantity ≤ hd.quantity := hq
              omega
            · left
              have h1 : op.register + op.quantity ≤ x.register := hch.1
              have h2 : hd.register = x.register := hreg
              omega
        · rw [← heq]
          exact hchain
      · rw [coalesceRead, if_neg hf]

lemma coalesceRead_fixed (s : List readOp) :
    List.Chain' boundaryBlocked s → coalesceFromRead s = s := by
  induction s with
  | nil => intro _; rfl
  | cons a s2 ih =>
    intro hch
    cases s2 with
    | nil => rfl
    | cons b t =>
      rw [List.chain'_cons] at hch
      have hnf : ¬ fireR a b := by
        intro hfab
        obtain ⟨hb1, hb2⟩ := hch.1
        rcases hb2 with hlt | hceil
        · have := hfab.1
          omega
        · have := hfab.2
          omega
      show coalesceRead a (b :: t) = a :: b :: t
      rw [coalesceRead, if_neg hnf]
      have := ih hch.2
      rw [show coalesceFromRead (b :: t) = coalesceRead b t from rfl] at this
      rw [this]

lemma coalesceWrite_out (xs : List writeOp) :
    ∀ op : writeOp, List.Chain opEndLeW op xs → (∀ x ∈ xs, writeOpOK x) → writeOpOK op →
      (∀ o ∈ coalesceWrite op xs, writeOpOK o) ∧
      List.Chain' boundaryBlockedW (coalesceWrite op xs) ∧
      ∃ h t, coalesceWrite op xs = h :: t ∧ h.register = op.register ∧
        op.quantity ≤ h.quantity := by
  induction xs with
  | nil =>
    intro op _ _ hopOK
    refine ⟨?_, ?_, op, [], rfl, rfl, le_refl _⟩
    · intro o ho
      rw [coalesceWrite] at ho
      rcases List.mem_singleton.mp ho with rfl
      exact hopOK
    · rw [coalesceWrite]
      exact List.chain'_singleton _
  | cons x rest ih =>
    intro op hch hOK hopOK
    rw [List.chain_cons] at hch
    have hxOK := hOK x (List.mem_cons_self x rest)
    by_cases hf : fireW op x
    · have hnewOK : writeOpOK
          (⟨op.register, op.quantity + x.quantity, op.value ++ x.value⟩ : writeOp) := by
        refine ⟨?_, ?_, ?_⟩
        · show 1 ≤ op.quantity + x.quantity
          have := hopOK.1
          omega
        · exact hf.2
        · show op.register + (op.quantity + x.quantity) ≤ u16mod
          have h1 := hxOK.2.2
          have h2 := hf.1
          omega
      have hch2 : List.Chain opEndLeW
          (⟨op.register, op.quantity + x.quantity, op.value ++ x.value⟩ : writeOp) rest :=
        chain_of_end_eqW rest x ⟨op.register, op.quantity + x.quantity, op.value ++ x.value⟩
          (by
            show x.register + x.quantity = op.register + (op.quantity + x.quantity)
            have := hf.1
            omega) hch.2
      obtain ⟨hprops, hchain, hd, td, heq, hreg, hq⟩ :=
        ih ⟨op.register, op.quantity + x.quantity, op.value ++ x.value⟩ hch2
          (fun y hy => hOK y (List.mem_cons_of_mem x hy)) hnewOK
      refine ⟨?_, ?_, hd, td, ?_, hreg, ?_⟩
      · intro o ho
        rw [coalesceWrite, if_pos hf] at ho
        exact hprops o ho
      · rw [coalesceWrite, if_pos hf]
        exact hchain
      · rw [coalesceWrite, if_pos hf]
        exact heq
      · have hq2 : op.quantity + x.quantity ≤ hd.quantity := hq
        omega
    · obtain ⟨hprops, hchain, hd, td, heq, hreg, hq⟩ :=
        ih x hch.2 (fun y hy => hOK y (List.mem_cons_of_mem x hy)) hxOK
      refine ⟨?_, ?_, op, coalesceWrite x rest, ?_, rfl, le_refl _⟩
      · intro o ho
        rw [coalesceWrite, if_neg hf] at ho
        rcases List.mem_cons.mp ho with rfl | ho2
        · exact hopOK
        · exact hprops o ho2
      · rw [coalesceWrite, if_neg hf, heq]
        rw [List.chain'_cons]
        constructor
        · constructor
          · have h1 : op.register + op.quantity ≤ x.register := hch.1
            omega
          · by_cases hadj : x.register = op.register + op.quantity
            · right
              have hceil : maxFunc16Quantity < op.quantity + x.quantity := by
                by_contra hle2
                exact hf ⟨hadj, by omega⟩
              have hq2 : x.quantity ≤ hd.quantity := hq
              omega
            · left
              have h1 : op.register + op.quantity ≤ x.register := hch.1
              have h2 : hd.register = x.register := hreg
              omega
        · rw [← heq]
          exact hchain
      · rw [coalesceWrite, if_neg hf]

lemma coalesceWrite_fixed (s : List writeOp) :
    List.Chain' boundaryBlockedW s → coalesceFromWrite s = s := by
  induction s with
  | nil => intro _; rfl
  | cons a s2 ih =>
    intro hch
    cases s2 with
    | nil => rfl
    | cons b t =>
      rw [List.chain'_cons] at hch
      have hnf : ¬ fireW a b := by
        intro hfab
        obtain ⟨hb1, hb2⟩ := hch.1
        rcases hb2 with hlt | hceil
        · have := hfab.1
          omega
        · have := hfab.2
          omega
      show coalesceWrite a (b :: t) = a :: b :: t
      rw [coalesceWrite, if_neg hnf]
      have := ih hch.2
      rw [show coalesceFromWrite (b :: t) = coalesceWrite b t from rfl] at this
      rw [this]

lemma optimizeRead_fixed_of_boundary (out : List readOp)
    (hprops : ∀ o ∈ out, readOpOK o) (hchainB : List.Chain' boundaryBlocked out) :
    optimizeRead out = out := by
  have hchainE : List.Chain' opEndLe out := hchainB.imp (fun a b hb => hb.1)
  have hpair : List.Pairwise opEndLe out := List.chain'_iff_pairwise.mp hchainE
  have hsorted : List.Sorted (fun a b : readOp => a.register ≤ b.register) out :=
    hpair.imp (fun hab => le_trans (Nat.le_add_right _ _) hab)
  have hsort_eq : sortReadOps out = out := List.Sorted.insertionSort_eq hsorted
  show optimizeReadAux (sortReadOps out) (sortReadOps out).length 0 = out
  rw [hsort_eq]
  rw [optimizeReadAux_eq_coalesce out hchainE hprops out.length 0 (by omega)]
  rw [List.drop_zero]
  exact coalesceRead_fixed out hchainB

lemma optimizeWrite_fixed_of_boundary (out : List writeOp)
    (hprops : ∀ o ∈ out, writeOpOK o) (hchainB : List.Chain' boundaryBlockedW out) :
    optimizeWrite out = out := by
  have hchainE : List.Chain' opEndLeW out := hchainB.imp (fun a b hb => hb.1)
  have hpair : List.Pairwise opEndLeW out := List.chain'_iff_pairwise.mp hchainE
  have hsorted : List.Sorted (fun a b : writeOp => a.register ≤ b.register) out :=
    hpair.imp (fun hab => le_trans (Nat.le_add_right _ _) hab)
  have hsort_eq : sortWriteOps out = out := List.Sorted.insertionSort_eq hsorted
  show optimizeWriteAux (sortWriteOps out) (sortWriteOps out).length 0 = out
  rw [hsort_eq]
  rw [optimizeWriteAux_eq_coalesce out hchainE hprops out.length 0 (by omega)]
  rw [List.drop_zero]
  exact coalesceWrite_fixed out hchainB

/-- Claim C7 counterexample: on the op list `[(0,1),(1,1),(1,7),(2,0)]`
(which contains an overlapping op and a zero-quantity op — both
representable `readOp` values), the optimizer is not idempotent: the
first pass skips `(1,7)` but later merges `(2,0)` and then resumes at it,
emitting `[(0,2),(2,0)]`, which a second pass merges further to
`[(0,2)]`.  This refutes idempotence "for every input list". -/
theorem claim_C7_counterexample :
    optimizeRead [⟨0, 1⟩, ⟨1, 1⟩, ⟨1, 7⟩, ⟨2, 0⟩] = [⟨0, 2⟩, ⟨2, 0⟩] ∧
    optimizeRead (optimizeRead [⟨0, 1⟩, ⟨1, 1⟩, ⟨1, 7⟩, ⟨2, 0⟩]) = [⟨0, 2⟩] ∧
    optimizeRead (optimizeRead [⟨0, 1⟩, ⟨1, 1⟩, ⟨1, 7⟩, ⟨2, 0⟩]) ≠
      optimizeRead [⟨0, 1⟩, ⟨1, 1⟩, ⟨1, 7⟩, ⟨2, 0⟩] := by
  decide

/-- Claim C7 (amended): on pairwise non-overlapping, validated op lists —
nonempty ranges fitting the 16-bit space, quantity within the ceiling,
as `validate` guarantees for everything the client feeds the optimizer —
`optimizeRead` and `optimizeWrite` are idempotent: consecutive output
ops are separated by a gap or by a ceiling-blocked boundary, so a second
pass merges nothing.  On arbitrary op values (overlapping ranges or
quantity 0) idempotence can fail (see the counterexample). -/
theorem claim_C7_optimizer_idempotent :
    (∀ l : List readOp, (∀ x ∈ l, readOpOK x) → List.Pairwise rangesDisjoint l →
      optimizeRead (optimizeRead l) = optimizeRead l) ∧
    (∀ l : List writeOp, (∀ x ∈ l, writeOpOK x) → List.Pairwise rangesDisjointW l →
      optimizeWrite (optimizeWrite l) = optimizeWrite l) := by
  constructor
  · intro l hOK hdis
    have heq := optimizeRead_eq_coalesce l hOK hdis
    have hch0 : List.Chain' opEndLe (sortReadOps l) :=
      sortReadOps_chain l (fun x hx => (hOK x hx).1) hdis
    have hOK0 : ∀ x ∈ sortReadOps l, readOpOK x :=
      fun x hx => hOK x ((sortReadOps_mem l x).mp hx)
    rw [heq]
    cases hs : sortReadOps l with
    | nil => rfl
    | cons a xs =>
      rw [hs] at hch0 hOK0
      have hcha : List.Chain opEndLe a xs := hch0
      obtain ⟨hprops, hchainB, _⟩ :=
        coalesceRead_out xs a hcha (fun y hy => hOK0 y (List.mem_cons_of_mem a hy))
          (hOK0 a (List.mem_cons_self a xs))
      exact optimizeRead_fixed_of_boundary (coalesceRead a xs) hprops hchainB
  · intro l hOK hdis
    have heq := optimizeWrite_eq_coalesce l hOK hdis
    have hch0 : List.Chain' opEndLeW (sortWriteOps l) :=
      sortWriteOps_chain l (fun x hx => (hOK x hx).1) hdis
    have hOK0 : ∀ x ∈ sortWriteOps l, writeOpOK x :=
      fun x hx => hOK x ((sortWriteOps_mem l x).mp hx)
    rw [heq]
    cases hs : sortWriteOps l with
    | nil => rfl
    | cons a xs =>
      rw [hs] at hch0 hOK0
      have hcha : List.Chain opEndLeW a xs := hch0
      obtain ⟨hprops, hchainB, _⟩ :=
        coalesceWrite_out xs a hcha (fun y hy => hOK0 y (List.mem_cons_of_mem a hy))
          (hOK0 a (List.mem_cons_self a xs))
      exact optimizeWrite_fixed_of_boundary (coalesceWrite a xs) hprops hchainB

/-- Claim C7 amended-claim witness: idempotence instantiated at concrete
validated disjoint lists for both optimizers. -/
theorem claim_C7_optimizer_idempotent_witness :
    optimizeRead (optimizeRead [⟨2, 2⟩, ⟨4, 2⟩, ⟨7, 1⟩]) =
      optimizeRead [⟨2, 2⟩, ⟨4, 2⟩, ⟨7, 1⟩] ∧
    optimizeWrite (optimizeWrite [⟨2, 1, [3, 2]⟩, ⟨6, 1, [8, 0]⟩]) =
      optimizeWrite [⟨2, 1, [3, 2]⟩, ⟨6, 1, [8, 0]⟩] :=
  ⟨claim_C7_optimizer_idempotent.1 _ (by decide) (by decide),
   claim_C7_optimizer_idempotent.2 _ (by decide) (by decide)⟩

lemma optimizeReadAux_no_fire_eq_drop (s : List readOp)
    (hnf : ∀ op ∈ s, ∀ y ∈ s, ¬(y.register = (op.register + op.quantity) % u16mod ∧
        (op.quantity + y.quantity) % u16mod ≤ maxFunc3Quantity)) :
    ∀ (fuel i : Nat), s.length - i ≤ fuel → optimizeReadAux s fuel i = s.drop i := by
  intro fuel
  induction fuel with
  | zero =>
    intro i hle
    rw [List.drop_eq_nil_of_le (by omega)]
    rfl
  | succ fuel ih =>
    intro i hle
    by_cases h : i < s.length
    · have hmem : s[i] ∈ s := List.getElem_mem h
      have hfold : (s.drop (i + 1)).foldl readMergeStep (s[i], 0) = (s[i], 0) :=
        foldl_readMergeStep_no_fire (s.drop (i + 1)) s[i]
          (fun y hy => hnf s[i] hmem y (List.mem_of_mem_drop hy)) 0
      simp only [optimizeReadAux, dif_pos h]
      rw [hfold]
      show s[i] :: optimizeReadAux s fuel (i + 0 + 1) = s.drop i
      rw [ih (i + 0 + 1) (by omega)]
      rw [List.drop_eq_getElem_cons h]
    · simp only [optimizeReadAux, dif_neg h]
      rw [List.drop_eq_nil_of_le (by omega)]

lemma optimizeWriteAux_no_fire_eq_drop (s : List writeOp)
    (hnf : ∀ op ∈ s, ∀ y ∈ s, ¬(y.register = (op.register + op.quantity) % u16mod ∧
        (op.quantity + y.quantity) % u16mod ≤ maxFunc16Quantity)) :
    ∀ (fuel i : Nat), s.length - i ≤ fuel → optimizeWriteAux s fuel i = s.drop i := by
  intro fuel
  induction fuel with
  | zero =>
    intro i hle
    rw [List.drop_eq_nil_of_le (by omega)]
    rfl
  | succ fuel ih =>
    intro i hle
    by_cases h : i < s.length
    · have hmem : s[i] ∈ s := List.getElem_mem h
      have hfold : (s.drop (i + 1)).foldl writeMergeStep (s[i], 0) = (s[i], 0) :=
        foldl_writeMergeStep_no_fire (s.drop (i + 1)) s[i]
          (fun y hy => hnf s[i] hmem y (List.mem_of_mem_drop hy)) 0
      simp only [optimizeWriteAux, dif_pos h]
      rw [hfold]
      show s[i] :: optimizeWriteAux s fuel (i + 0 + 1) = s.drop i
      rw [ih (i + 0 + 1) (by omega)]
      rw [List.drop_eq_getElem_cons h]
    · simp only [optimizeWriteAux, dif_neg h]
      rw [List.drop_eq_nil_of_le (by omega)]

/-- Claim C8 counterexample: in `[(0,2),(1,1),(2,1)]` the op `(1,1)`
overlaps `(0,2)` (ranges intersect, not adjacent: `1 ≠ 0+2`), yet it
does not pass through: the scan skips it, later merges `(2,1)` into the
accumulator, and resumes at the already-merged `(2,1)` — the output is
`[(0,3),(2,1)]` and the overlapping op `(1,1)` appears zero times, not
"exactly once and unmodified". -/
theorem claim_C8_counterexample :
    ¬ rangesDisjoint ⟨0, 2⟩ ⟨1, 1⟩ ∧
    (⟨1, 1⟩ : readOp).register ≠
      ((⟨0, 2⟩ : readOp).register + (⟨0, 2⟩ : readOp).quantity) % u16mod ∧
    (⟨1, 1⟩ : readOp) ∈ ([⟨0, 2⟩, ⟨1, 1⟩, ⟨2, 1⟩] : List readOp) ∧
    optimizeRead [⟨0, 2⟩, ⟨1, 1⟩, ⟨2, 1⟩] = [⟨0, 3⟩, ⟨2, 1⟩] ∧
    (⟨1, 1⟩ : readOp) ∉ optimizeRead [⟨0, 2⟩, ⟨1, 1⟩, ⟨2, 1⟩] := by
  decide

/-- Claim C8 (amended): the optimizer applies no deduplication or
conflict handling to overlapping ranges — only exact register-adjacency
ever merges.  When no op's register equals another op's
`register + quantity` (mod 2^16) — in particular for lists of pairwise
overlapping, non-adjacent ranges — nothing merges: the output is exactly
the register-sorted input and every op (overlapping ones included)
appears with its exact input multiplicity, unmodified.  When some other
op is adjacent to a grown accumulator, however, an overlapping op can be
dropped entirely and the boundary op duplicated into the merge (see the
counterexample). -/
theorem claim_C8_overlap_passthrough :
    (∀ l : List readOp,
      (∀ a ∈ l, ∀ b ∈ l, b.register ≠ (a.register + a.quantity) % u16mod) →
      optimizeRead l = sortReadOps l ∧
        ∀ op : readOp, (optimizeRead l).count op = l.count op) ∧
    (∀ l : List writeOp,
      (∀ a ∈ l, ∀ b ∈ l, b.register ≠ (a.register + a.quantity) % u16mod) →
      optimizeWrite l = sortWriteOps l ∧
        ∀ op : writeOp, (optimizeWrite l).count op = l.count op) := by
  constructor
  · intro l h
    have hs : optimizeRead l = sortReadOps l := by
      show optimizeReadAux (sortReadOps l) (sortReadOps l).length 0 = sortReadOps l
      have heq := optimizeReadAux_no_fire_eq_drop (sortReadOps l)
        (fun op hop y hy hc =>
          h op ((sortReadOps_mem l op).mp hop) y ((sortReadOps_mem l y).mp hy) hc.1)
        (sortReadOps l).length 0 (by omega)
      rw [heq, List.drop_zero]
    refine ⟨hs, fun op => ?_⟩
    rw [hs]
    exact (List.perm_insertionSort _ l).count_eq op
  · intro l h
    have hs : optimizeWrite l = sortWriteOps l := by
      show optimizeWriteAux (sortWriteOps l) (sortWriteOps l).length 0 = sortWriteOps l
      have heq := optimizeWriteAux_no_fire_eq_drop (sortWriteOps l)
        (fun op hop y hy hc =>
          h op ((sortWriteOps_mem l op).mp hop) y ((sortWriteOps_mem l y).mp hy) hc.1)
        (sortWriteOps l).length 0 (by omega)
      rw [heq, List.drop_zero]
    refine ⟨hs, fun op => ?_⟩
    rw [hs]
    exact (List.perm_insertionSort _ l).count_eq op

/-- Claim C8 amended-claim witness: overlapping, non-adjacent lists pass
through both optimizers sorted and with multiplicities intact. -/
theorem claim_C8_overlap_passthrough_witness :
    optimizeRead [⟨0, 2⟩, ⟨1, 2⟩] = sortReadOps [⟨0, 2⟩, ⟨1, 2⟩] ∧
    (optimizeRead [⟨0, 2⟩, ⟨1, 2⟩]).count ⟨1, 2⟩ =
      ([⟨0, 2⟩, ⟨1, 2⟩] : List readOp).count ⟨1, 2⟩ ∧
    optimizeWrite [⟨0, 2, [1, 2, 3, 4]⟩, ⟨1, 2, [5, 6, 7, 8]⟩] =
      sortWriteOps [⟨0, 2, [1, 2, 3, 4]⟩, ⟨1, 2, [5, 6, 7, 8]⟩] :=
  ⟨(claim_C8_overlap_passthrough.1 [⟨0, 2⟩, ⟨1, 2⟩] (by decide)).1,
   (claim_C8_overlap_passthrough.1 [⟨0, 2⟩, ⟨1, 2⟩] (by decide)).2 ⟨1, 2⟩,
   (claim_C8_overlap_passthrough.2 [⟨0, 2, [1, 2, 3, 4]⟩, ⟨1, 2, [5, 6, 7, 8]⟩]
     (by decide)).1⟩

lemma foldl_writeMergeStep_len_inv (xs : List writeOp)
    (hxs : ∀ x ∈ xs, x.value.length = 2 * x.quantity ∧ x.quantity ≤ maxFunc16Quantity) :
    ∀ (op : writeOp) (k : Nat),
      op.value.length = 2 * op.quantity → op.quantity ≤ maxFunc16Quantity →
      (xs.foldl writeMergeStep (op, k)).1.value.length =
        2 * (xs.foldl writeMergeStep (op, k)).1.quantity ∧
      (xs.foldl writeMergeStep (op, k)).1.quantity ≤ maxFunc16Quantity := by
  induction xs with
  | nil =>
    intro op k hlen hq
    exact ⟨hlen, hq⟩
  | cons x rest ih =>
    intro op k hlen hq
    have hx := hxs x (List.mem_cons_self x rest)
    have hxs2 : ∀ y ∈ rest, y.value.length = 2 * y.quantity ∧
        y.quantity ≤ maxFunc16Quantity := fun y hy => hxs y (List.mem_cons_of_mem x hy)
    by_cases h : x.register = (op.register + op.quantity) % u16mod ∧
        (op.quantity + x.quantity) % u16mod ≤ maxFunc16Quantity
    · have hmod : (op.quantity + x.quantity) % u16mod = op.quantity + x.quantity :=
        Nat.mod_eq_of_lt (by
          have hu : u16mod = 65536 := rfl
          have hc : maxFunc16Quantity = 123 := rfl
          have h1 := hx.2
          omega)
      rw [List.foldl_cons, writeMergeStep, if_pos h]
      refine ih hxs2 ⟨op.register, (op.quantity + x.quantity) % u16mod,
        op.value ++ x.value⟩ (k + 1) ?_ ?_
      · show (op.value ++ x.value).length = 2 * ((op.quantity + x.quantity) % u16mod)
        rw [List.length_append, hmod]
        have h1 := hx.1
        omega
      · show (op.quantity + x.quantity) % u16mod ≤ maxFunc16Quantity
        exact h.2
    · rw [List.foldl_cons, writeMergeStep, if_neg h]
      exact ih hxs2 op k hlen hq

lemma optimizeWriteAux_len_inv (l : List writeOp)
    (hl : ∀ x ∈ l, x.value.length = 2 * x.quantity ∧ x.quantity ≤ maxFunc16Quantity) :
    ∀ (fuel i : Nat), ∀ o ∈ optimizeWriteAux l fuel i,
      o.value.length = 2 * o.quantity ∧ o.quantity ≤ maxFunc16Quantity := by
  intro fuel
  induction fuel with
  | zero =>
    intro i o ho
    cases ho
  | succ fuel ih =>
    intro i o ho
    by_cases h : i < l.length
    · simp only [optimizeWriteAux, dif_pos h] at ho
      rcases List.mem_cons.mp ho with rfl | ho2
      · have hi := hl l[i] (List.getElem_mem h)
        exact foldl_writeMergeStep_len_inv (l.drop (i + 1))
          (fun y hy => hl y (List.mem_of_mem_drop hy)) l[i] 0 hi.1 hi.2
      · exact ih (i + ((l.drop (i + 1)).foldl writeMergeStep (l[i], 0)).2 + 1) o ho2
    · simp only [optimizeWriteAux, dif_neg h] at ho
      cases ho

/-- Claim C10 counterexample: `writeOp` quantities are 16-bit, and the
merge adds them modulo 2^16 while value bytes are appended without
bound.  The validated-length ops `(0, 65413, 130826 bytes)` and
`(65413, 123, 246 bytes)` are exactly adjacent, and the ceiling check
passes because `(65413+123) mod 2^16 = 0 ≤ 123` — the merged op has
quantity 0 but 131072 value bytes, breaking `len(value) = 2*quantity`.
This refutes the claim for arbitrary input quantities. -/
theorem claim_C10_counterexample :
    (∀ op ∈ ([⟨0, 65413, List.replicate 130826 0⟩,
        ⟨65413, 123, List.replicate 246 0⟩] : List writeOp),
      op.value.length = 2 * op.quantity) ∧
    ∃ op ∈ optimizeWrite [⟨0, 65413, List.replicate 130826 0⟩,
        ⟨65413, 123, List.replicate 246 0⟩],
      op.value.length ≠ 2 * op.quantity := by
  have hopt : optimizeWrite [⟨0, 65413, List.replicate 130826 0⟩,
      ⟨65413, 123, List.replicate 246 0⟩] =
      [⟨0, 0, List.replicate 130826 0 ++ List.replicate 246 0⟩] := rfl
  constructor
  · intro op hop
    rcases List.mem_cons.mp hop with rfl | hop2
    · show (List.replicate 130826 0).length = 2 * 65413
      rw [List.length_replicate]
    · rcases List.mem_cons.mp hop2 with rfl | hop3
      · show (List.replicate 246 0).length = 2 * 123
        rw [List.length_replicate]
      · cases hop3
  · refine ⟨⟨0, 0, List.replicate 130826 0 ++ List.replicate 246 0⟩, ?_, ?_⟩
    · rw [hopt]
      exact List.mem_cons_self _ _
    · show (List.replicate 130826 0 ++ List.replicate 246 0).length ≠ 2 * 0
      rw [List.length_append, List.length_replicate, List.length_replicate]
      omega

/-- Claim C10 (amended): for write ops that also respect the 123-register
write ceiling (what `writeOp.validate` guarantees for every op the
client feeds the optimizer), the invariant is preserved: quantity sums
then never wrap 16 bits, so each merge adds the absorbed op's quantity
and appends exactly its value bytes, and every op `optimizeWrite` emits
satisfies `len(value) = 2*quantity` (and stays within the ceiling).
Without the ceiling bound 16-bit wrap-around can break the invariant
(see the counterexample). -/
theorem claim_C10_value_length_invariant :
    ∀ l : List writeOp,
      (∀ x ∈ l, x.value.length = 2 * x.quantity ∧ x.quantity ≤ maxFunc16Quantity) →
      ∀ o ∈ optimizeWrite l,
        o.value.length = 2 * o.quantity ∧ o.quantity ≤ maxFunc16Quantity := by
  intro l hl o ho
  exact optimizeWriteAux_len_inv (sortWriteOps l)
    (fun x hx => hl x ((sortWriteOps_mem l x).mp hx)) (sortWriteOps l).length 0 o ho

/-- Claim C10 amended-claim witness: the invariant theorem instantiated
at `[(2,1,[3,2]),(3,1,[3,4])]`, whose merged output op `(2,2,[3,2,3,4])`
indeed has 4 = 2*2 value bytes within the ceiling. -/
theorem claim_C10_value_length_invariant_witness :
    (⟨2, 2, [3, 2, 3, 4]⟩ : writeOp).value.length =
      2 * (⟨2, 2, [3, 2, 3, 4]⟩ : writeOp).quantity ∧
    (⟨2, 2, [3, 2, 3, 4]⟩ : writeOp).quantity ≤ maxFunc16Quantity :=
  claim_C10_value_length_invariant [⟨2, 1, [3, 2]⟩, ⟨3, 1, [3, 4]⟩] (by decide)
    ⟨2, 2, [3, 2, 3, 4]⟩ (by decide)
